import Mathlib

/-!
# selfupdate: update cycle, archive unpacking, restart and URL templating

A shallow embedding of `updater.go`, `restart.go` and `http_source.go`.

* Go strings are lists of bytes, Go `error` values are `Option GoError`.
* Every call that leaves the package (file system, process control, the
  `Source`, the user callbacks, the package's own `apply` / `applyAppDirectory`)
  appends one `Event` carrying its arguments and its result to a trace.  The
  result of such a call is given by an oracle that sees the whole history, so a
  theorem quantified over the oracles holds for every behaviour of the
  environment.
* Functions take the history `h` and return the events they add to it.
* `os.Exit` ends the run: nothing after it, deferred calls included, is executed.
* Paths follow the `path/filepath` rules of the platforms whose only separator
  is `/` and that have no volume names.
-/

namespace Selfupdate

/-! ## Strings and errors -/

/-- Go string, as the list of its bytes, each byte written as a character (the texts this
file compares are ASCII). -/
abbrev GoString := List Char

/-- Go error value, identified with its message. -/
structure GoError where
  msg : GoString
deriving DecidableEq, Repr

/-- Model of `fmt.Errorf(text + "%v", err)`: the text followed by the message of `err`. -/
def Errorf (text : GoString) (err : GoError) : GoError :=
  ⟨text ++ err.msg⟩

/-- Model of `strings.HasSuffix`. -/
def HasSuffix (s suffix : GoString) : Bool :=
  suffix.isSuffixOf s

/-! ## path/filepath -/

/-- Put a character in front of the first element of a split. -/
def consHead (c : Char) : List GoString → List GoString
  | [] => [[c]]
  | e :: es => (c :: e) :: es

/-- Split a path at every `/`. -/
def splitSlash : GoString → List GoString
  | [] => [[]]
  | c :: cs => if c = '/' then [] :: splitSlash cs else consHead c (splitSlash cs)

/-- Model of `strings.Join(elems, "/")`. -/
def joinSlash : List GoString → GoString
  | [] => []
  | [e] => e
  | e :: es => e ++ '/' :: joinSlash es

/-- One round of the loop of `filepath.Clean`; `out` holds the elements written so far,
the latest first.  Empty and `.` elements are skipped; `..` removes the latest real
element, is dropped at the root, and is kept in a leading run of `..` otherwise. -/
def cleanStep (rooted : Bool) (out : List GoString) (e : GoString) : List GoString :=
  if e = [] ∨ e = ".".toList then out
  else if e = "..".toList then
    match out with
    | [] => if rooted then [] else [e]
    | top :: rest => if top = "..".toList then e :: out else rest
  else e :: out

/-- The elements that `filepath.Clean` keeps, in path order. -/
def cleanElems (rooted : Bool) (path : GoString) : List GoString :=
  ((splitSlash path).foldl (cleanStep rooted) []).reverse

/-- Whether a path starts with the separator. -/
def isRooted (path : GoString) : Bool :=
  path.head? == some '/'

/-- The text of a cleaned path: the kept elements joined by `/`, after a leading `/` for a
rooted path, and `.` for a relative path with no element left. -/
def renderPath (rooted : Bool) (elems : List GoString) : GoString :=
  if rooted then '/' :: joinSlash elems
  else if joinSlash elems = [] then ".".toList else joinSlash elems

/-- Model of `filepath.Clean`. -/
def filepath.Clean (path : GoString) : GoString :=
  if path = [] then ".".toList
  else renderPath (isRooted path) (cleanElems (isRooted path) path)

/-- Model of `filepath.Join`: the elements from the first non-empty one on are joined
with `/` and cleaned; the result is empty when every element is. -/
def filepath.Join : List GoString → GoString
  | [] => []
  | e :: es => if e = [] then filepath.Join es else filepath.Clean (joinSlash (e :: es))

/-- The part of a path up to and including its last `/`. -/
def dirPart (path : GoString) : GoString :=
  (path.reverse.dropWhile (fun c => c != '/')).reverse

/-- Model of `filepath.Dir`. -/
def filepath.Dir (path : GoString) : GoString :=
  filepath.Clean (dirPart path)

/-- Backwards scan of `filepath.Ext` over the reversed path. -/
def extScan : GoString → GoString → GoString
  | [], _ => []
  | c :: cs, acc =>
    if c = '/' then [] else if c = '.' then '.' :: acc else extScan cs (c :: acc)

/-- Model of `filepath.Ext`: the suffix of the last element starting at its last dot. -/
def filepath.Ext (path : GoString) : GoString :=
  extScan path.reverse []

/-! ## archive/zip -/

/-- Model of `zip.File`: the header fields that `unzip` reads. -/
structure ZipFile where
  /-- Name of the entry as stored in the archive. -/
  Name : GoString
  /-- Directory bit of the external attributes. -/
  attrDir : Bool
  /-- Permission bits, the value of `f.Mode()`. -/
  Mode : Nat
deriving DecidableEq, Repr

/-- Model of `f.FileInfo().IsDir()`: the attribute bit, or a name ending in `/`. -/
def ZipFile.IsDir (f : ZipFile) : Bool :=
  f.attrDir || f.Name.getLast? == some '/'

/-! ## Events and the environment -/

/-- The reader handed to `apply`. -/
inductive Reader where
  /-- The fetched stream behind the progress decorator, with its declared length. -/
  | progress (contentLength : Int)
  /-- A `bytes.Reader` over the given data. -/
  | bytes (data : List Nat)
deriving DecidableEq, Repr

/-- One observable step of a run. -/
inductive Event where
  | lock
  | unlock
  | log (msg : GoString)
  | upgradeConfirm (msg : GoString) (answer : Bool)
  | restartConfirm (answer : Bool)
  | sourceGet (err : Option GoError)
  | streamClose
  | readAll (err : Option GoError)
  | zipNewReader (files : List ZipFile) (err : Option GoError)
  | mkdirAll (path : GoString) (err : Option GoError)
  | openFile (path : GoString) (mode : Nat) (err : Option GoError)
  | entryOpen (name : GoString) (err : Option GoError)
  | copy (path : GoString) (err : Option GoError)
  | outFileClose (path : GoString)
  | entryClose (name : GoString)
  | osOpen (path : GoString) (err : Option GoError)
  | fileRead (path : GoString) (err : Option GoError)
  | fileClose (path : GoString)
  | applyAppDirectory (path : GoString) (err : Option GoError)
  | apply (reader : Reader) (err : Option GoError)
  | cmdStart (name : GoString) (args : List GoString) (err : Option GoError)
  | getwd (err : Option GoError)
  | osextExecutable (err : Option GoError)
  | startProcess (name : GoString) (argv : List GoString) (dir : GoString) (err : Option GoError)
  | exiter (err : Option GoError)
  | osExit (code : Nat)
deriving DecidableEq, Repr

/-- History of a run. -/
abbrev Trace := List Event

/-- The environment: what every outside call answers, given the history so far. The fields
`apply`, `applyAppDirectory` and `osextExecutable` stand for functions of this package whose
source is not part of the modelled files; on success they give the installed target path,
resp. the path of the running executable. -/
structure Sys where
  /-- Value of `os.TempDir()`. -/
  TempDir : GoString
  /-- Value of `os.Args`. -/
  Args : List GoString
  /-- Error of `os.Open` for a missing file. -/
  ENOENT : GoError
  /-- Result of `io.ReadAll` on the fetched stream. -/
  ReadAll : Trace → Except GoError (List Nat)
  /-- Result of `zip.NewReader` on the data: the entry table of the archive. -/
  zipNewReader : List Nat → Except GoError (List ZipFile)
  MkdirAll : Trace → GoString → Option GoError
  OpenFile : Trace → GoString → Nat → Option GoError
  entryOpen : Trace → ZipFile → Option GoError
  Copy : Trace → GoString → ZipFile → Option GoError
  Open : Trace → GoString → Option GoError
  ReadFile : Trace → GoString → Except GoError (List Nat)
  apply : Trace → Reader → Except GoError GoString
  applyAppDirectory : Trace → GoString → Except GoError GoString
  cmdStart : Trace → GoString → List GoString → Option GoError
  Getwd : Trace → Except GoError GoString
  osextExecutable : Trace → Except GoError GoString
  StartProcess : Trace → GoString → List GoString → GoString → Option GoError

/-- Model of `os.Open`: the empty name is refused with the missing-file error before any
lookup, on every platform; any other name is answered by the file system. -/
def osOpen (sys : Sys) (h : Trace) (path : GoString) : Option GoError :=
  if path = [] then some sys.ENOENT else sys.Open h path

/-- How a call ends: it returns a value, or the process has been ended with a status. -/
inductive Outcome (α : Type) where
  | returned (v : α)
  | exited (code : Nat)
deriving DecidableEq, Repr

/-- Model of `Config`. A callback sees the history; `Source` is the `Get` method of the
source and gives the declared length of the stream; `ExitCallback` answers `some code` when
the handler ends the process with that status and `none` when it returns. -/
structure Config where
  FetchOnStart : Bool
  Zip : Bool
  Source : Trace → Except GoError Int
  RestartConfirmCallback : Option (Trace → Bool)
  UpgradeConfirmCallback : Option (Trace → GoString → Bool)
  ExitCallback : Option (Trace → Option GoError → Option Nat)

/-- Model of `Updater`. -/
structure Updater where
  conf : Config
  executable : GoString

/-! ## updater.go -/

/-- The loop of `unzip` over the entry table, from the entry list left to visit and the
current value of `rootFileName`. -/
def unzipLoop (sys : Sys) (destDir : GoString) :
    List ZipFile → GoString → Trace → Trace × Except GoError GoString
  | [], rootFileName, _ => ([], .ok rootFileName)
  | f :: fs, rootFileName, h =>
    let fPath := filepath.Join [destDir, f.Name]
    if f.IsDir then
      let root1 := if HasSuffix f.Name ".app/".toList then fPath else rootFileName
      match sys.MkdirAll h fPath with
      | some err =>
        ([.mkdirAll fPath (some err), .log ("error make file dir: ".toList ++ fPath)], .error err)
      | none =>
        let rest := unzipLoop sys destDir fs root1 (h ++ [.mkdirAll fPath none])
        (.mkdirAll fPath none :: rest.1, rest.2)
    else
      match sys.MkdirAll h (filepath.Dir fPath) with
      | some err => ([.mkdirAll (filepath.Dir fPath) (some err)], .error err)
      | none =>
        let e1 : Trace := [.mkdirAll (filepath.Dir fPath) none]
        match sys.OpenFile (h ++ e1) fPath f.Mode with
        | some err => (e1 ++ [.openFile fPath f.Mode (some err)], .error err)
        | none =>
          let e2 : Trace := e1 ++ [.openFile fPath f.Mode none]
          match sys.entryOpen (h ++ e2) f with
          | some err => (e2 ++ [.entryOpen f.Name (some err)], .error err)
          | none =>
            let e3 : Trace := e2 ++ [.entryOpen f.Name none]
            let err := sys.Copy (h ++ e3) fPath f
            let e4 : Trace := e3 ++ [.copy fPath err, .outFileClose fPath, .entryClose f.Name]
            match err with
            | some err => (e4, .error err)
            | none =>
              let root1 := if HasSuffix f.Name ".exe".toList then fPath else rootFileName
              let root2 := if filepath.Dir f.Name = ".".toList then fPath else root1
              let rest := unzipLoop sys destDir fs root2 (h ++ e4)
              (e4 ++ rest.1, rest.2)

/-- Model of `unzip`: the stream is read into memory, indexed as an archive, and every
entry is extracted below `os.TempDir()`. -/
def unzip (sys : Sys) (h : Trace) : Trace × Except GoError GoString :=
  match sys.ReadAll h with
  | .error err => ([.readAll (some err)], .error err)
  | .ok data =>
    match sys.zipNewReader data with
    | .error err => ([.readAll none, .zipNewReader [] (some err)], .error err)
    | .ok files =>
      let e1 : Trace := [.readAll none, .zipNewReader files none]
      let loop := unzipLoop sys sys.TempDir files [] (h ++ e1)
      (e1 ++ loop.1, loop.2)

/-- Model of `getFileReader`: the extracted file is opened and read into memory. -/
def getFileReader (sys : Sys) (filePath : GoString) (h : Trace) :
    Trace × Except GoError Reader :=
  match osOpen sys h filePath with
  | some err => ([.osOpen filePath (some err)], .error (Errorf "failed to open file: ".toList err))
  | none =>
    let e1 : Trace := [.osOpen filePath none]
    match sys.ReadFile (h ++ e1) filePath with
    | .error err =>
      (e1 ++ [.fileRead filePath (some err), .fileClose filePath],
        .error (Errorf "failed to read file: ".toList err))
    | .ok data => (e1 ++ [.fileRead filePath none, .fileClose filePath], .ok (.bytes data))

/-- Model of `applyUpdate`: raw apply of the reader; the target path on success. -/
def applyUpdate (sys : Sys) (reader : Reader) (h : Trace) : Trace × GoString × Option GoError :=
  match sys.apply h reader with
  | .error err => ([.apply reader (some err)], [], some err)
  | .ok target => ([.apply reader none], target, none)

/-- Model of `applyUpdateForZip`: unpack, then bundle apply for a path ending in `.app`
and raw apply of the extracted file otherwise. -/
def applyUpdateForZip (sys : Sys) (h : Trace) : Trace × GoString × Option GoError :=
  let u := unzip sys h
  match u.2 with
  | .error err => (u.1, [], some (Errorf "failed to unzip: ".toList err))
  | .ok extractedPath =>
    if HasSuffix extractedPath ".app".toList then
      match sys.applyAppDirectory (h ++ u.1) extractedPath with
      | .error err => (u.1 ++ [.applyAppDirectory extractedPath (some err)], [], some err)
      | .ok target => (u.1 ++ [.applyAppDirectory extractedPath none], target, none)
    else
      let g := getFileReader sys extractedPath (h ++ u.1)
      match g.2 with
      | .error err =>
        (u.1 ++ g.1, [], some (Errorf "failed to open extracted file: ".toList err))
      | .ok file =>
        match sys.apply (h ++ (u.1 ++ g.1)) file with
        | .error err => (u.1 ++ g.1 ++ [.apply file (some err)], [], some err)
        | .ok target => (u.1 ++ g.1 ++ [.apply file none], target, none)

/-! ## restart.go -/

/-- The tail shared by both branches of `restart`, run with the error of the launch:
the handler is called when there is one, else the process exits with status 0 after a
successful launch, else the error is returned. -/
def afterLaunch (exiter : Option (Trace → Option GoError → Option Nat)) (err : Option GoError)
    (h : Trace) : Trace × Outcome (Option GoError) :=
  match exiter with
  | some handler =>
    match handler h err with
    | some code => ([.exiter err], .exited code)
    | none => ([.exiter err], .returned err)
  | none =>
    match err with
    | none => ([.osExit 0], .exited 0)
    | some e => ([], .returned (some e))

/-- Model of `restart`. -/
def restart (sys : Sys) (exiter : Option (Trace → Option GoError → Option Nat))
    (executable : GoString) (h : Trace) : Trace × Outcome (Option GoError) :=
  if filepath.Ext executable = ".app".toList then
    let err := sys.cmdStart h "open".toList [executable]
    let e1 : Trace := [.cmdStart "open".toList [executable] err]
    let tail := afterLaunch exiter err (h ++ e1)
    (e1 ++ tail.1, tail.2)
  else
    match sys.Getwd h with
    | .error err => ([.getwd (some err)], .returned (some err))
    | .ok wd =>
      let e1 : Trace := [.getwd none]
      let resolved : Trace × Except GoError GoString :=
        if executable = [] then
          match sys.osextExecutable (h ++ e1) with
          | .error err => ([.osextExecutable (some err)], .error err)
          | .ok exe => ([.osextExecutable none], .ok exe)
        else ([], .ok executable)
      match resolved.2 with
      | .error err => (e1 ++ resolved.1, .returned (some err))
      | .ok exe =>
        let e2 : Trace := e1 ++ resolved.1
        let err := sys.StartProcess (h ++ e2) exe sys.Args wd
        let e3 : Trace := e2 ++ [.startProcess exe sys.Args wd err]
        let tail := afterLaunch exiter err (h ++ e3)
        (e3 ++ tail.1, tail.2)

/-- Model of `Updater.Restart`. -/
def Updater.Restart (sys : Sys) (u : Updater) (h : Trace) : Trace × Outcome (Option GoError) :=
  restart sys u.conf.ExitCallback u.executable h

/-- Lines 55 to 81 of `Updater.CheckNow`, the cycle from the fetch on; `e1` holds the events
of the cycle so far.  The deferred calls (closing the stream, then releasing the lock) run
when the method returns and do not run when the process has been ended. -/
def Updater.cycle (sys : Sys) (u : Updater) (h e1 : Trace) :
    Trace × Updater × Outcome (Option GoError) :=
  match u.conf.Source (h ++ e1) with
  | .error err => (e1 ++ [.sourceGet (some err), .unlock], u, .returned (some err))
  | .ok contentLength =>
    let e2 : Trace := e1 ++ [.sourceGet none]
    let applied : Trace × GoString × Option GoError :=
      if u.conf.Zip then applyUpdateForZip sys (h ++ e2)
      else applyUpdate sys (.progress contentLength) (h ++ e2)
    let u1 : Updater := { u with executable := applied.2.1 }
    match applied.2.2 with
    | some err => (e2 ++ applied.1 ++ [.streamClose, .unlock], u1, .returned (some err))
    | none =>
      let e3 : Trace := e2 ++ applied.1
      let confirm : Trace :=
        match u.conf.RestartConfirmCallback with
        | some ask => [.restartConfirm (ask (h ++ e3))]
        | none => []
      let e4 : Trace := e3 ++ confirm
      let r := u1.Restart sys (h ++ e4)
      match r.2 with
      | .exited code => (e4 ++ r.1, u1, .exited code)
      | .returned err => (e4 ++ r.1 ++ [.streamClose, .unlock], u1, .returned err)

/-- Model of `Updater.CheckNow`: the lock is taken, the upgrade is confirmed when a callback
is set, and the cycle runs unless the answer is negative. -/
def Updater.CheckNow (sys : Sys) (u : Updater) (h : Trace) :
    Trace × Updater × Outcome (Option GoError) :=
  let e0 : Trace := [.lock]
  let asked : Trace × Bool :=
    match u.conf.UpgradeConfirmCallback with
    | some ask =>
      let answer := ask (h ++ e0) "New version found".toList
      ([.upgradeConfirm "New version found".toList answer], answer)
    | none => ([], true)
  if asked.2 = false then
    (e0 ++ asked.1 ++ [.log "The user didn't confirm the upgrade.".toList, .unlock], u,
      .returned none)
  else u.cycle sys h (e0 ++ asked.1)

/-! ## http_source.go -/

/-- Model of the `platform` struct. -/
structure platform where
  OS : GoString
  Arch : GoString
  Ext : GoString
  Executable : GoString
deriving DecidableEq, Repr

/-- Node of a parsed template: literal text, or the action that prints one field of the
data. -/
inductive TNode where
  | text (s : GoString)
  | field (name : GoString)
deriving DecidableEq, Repr

/-- Result of parsing a template with the modelled part of `text/template`: text and
actions of the exact form `.Name` between the delimiters. -/
inductive Parsed where
  | nodes (ns : List TNode)
  /-- The template is certainly rejected by `Parse`. -/
  | parseError
  /-- The template uses an action outside the modelled part. -/
  | beyond
deriving DecidableEq, Repr

/-- Opening brace. -/
def lbrace : Char := Char.ofNat 123

/-- Closing brace. -/
def rbrace : Char := Char.ofNat 125

/-- Put a node in front of a parse. -/
def Parsed.cons (n : TNode) : Parsed → Parsed
  | .nodes ns => .nodes (n :: ns)
  | p => p

/-- Put the text collected so far (held reversed) in front of a parse; empty text gives
no node. -/
def Parsed.consText (acc : GoString) (p : Parsed) : Parsed :=
  if acc = [] then p else p.cons (.text acc.reverse)

/-- Letters, digits and the underscore. -/
def isAlphaNumeric (c : Char) : Bool :=
  c = '_' || c.isAlpha || c.isDigit

/-- The field name of an action body of the exact form `.Name`. -/
def fieldOf : GoString → Option GoString
  | '.' :: c :: cs =>
    if !c.isDigit && (c :: cs).all isAlphaNumeric then some (c :: cs) else none
  | _ => none

/-- Lexer and parser of the modelled part: text runs to the next left delimiter, an action
runs to the next right delimiter.  An action left open at the end of the input is a parse
error whatever it holds; an action that is not a single field puts the template outside
the modelled part. -/
def scanTemplate : Bool → GoString → GoString → Parsed
  | false, acc, [] => Parsed.consText acc (.nodes [])
  | true, _, [] => .parseError
  | false, acc, [c] => Parsed.consText (c :: acc) (.nodes [])
  | true, _, [_] => .parseError
  | false, acc, c1 :: c2 :: rest =>
    if c1 = lbrace ∧ c2 = lbrace then Parsed.consText acc (scanTemplate true [] rest)
    else scanTemplate false (c1 :: acc) (c2 :: rest)
  | true, acc, c1 :: c2 :: rest =>
    if c1 = rbrace ∧ c2 = rbrace then
      match fieldOf acc.reverse with
      | some name => (scanTemplate false [] rest).cons (.field name)
      | none => .beyond
    else scanTemplate true (c1 :: acc) (c2 :: rest)

/-- Field lookup on a `platform` value; a name that is not a field is an execution
error. -/
def lookupField (p : platform) (name : GoString) : Option GoString :=
  if name = "OS".toList then some p.OS
  else if name = "Arch".toList then some p.Arch
  else if name = "Ext".toList then some p.Ext
  else if name = "Executable".toList then some p.Executable
  else none

/-- Model of `Execute`: the texts and the field values in order, or an error. -/
def execNodes (p : platform) : List TNode → Option GoString
  | [] => some []
  | .text s :: ns => (execNodes p ns).map (fun out => s ++ out)
  | .field name :: ns =>
    match lookupField p name with
    | none => none
    | some v => (execNodes p ns).map (fun out => v ++ out)

/-- What `replaceURLTemplate` reads from the process and the platform. -/
structure Runtime where
  GOOS : GoString
  GOARCH : GoString
  /-- Result of `ExecutableRealPath()`, a function of this package outside the modelled
  files. -/
  ExecutableRealPath : Except GoError GoString
  /-- Value of `os.Args`. -/
  Args : List GoString
  /-- The `filepath.Base` of the platform. -/
  Base : GoString → GoString
  /-- Result of `Parse` then `Execute` for a template outside the modelled part, `none`
  when either fails. -/
  templateBeyond : GoString → platform → Option GoString

/-- Model of `template.New("platform").Parse(base)` followed by `Execute` on `p`; `none`
when either fails. -/
def templateRun (rt : Runtime) (base : GoString) (p : platform) : Option GoString :=
  match scanTemplate false [] base with
  | .nodes ns => execNodes p ns
  | .parseError => none
  | .beyond => rt.templateBeyond base p

/-- Model of `replaceURLTemplate`; `none` stands for a run-time panic (indexing empty
`os.Args`, or cutting four bytes off a shorter executable name on Windows). -/
def replaceURLTemplate (rt : Runtime) (base : GoString) : Option GoString :=
  let ext : GoString := if rt.GOOS = "windows".toList then ".exe".toList else []
  let exe : Option GoString :=
    match rt.ExecutableRealPath with
    | .error _ =>
      match rt.Args with
      | [] => none
      | a :: _ => some (rt.Base a)
    | .ok path => some (rt.Base path)
  match exe with
  | none => none
  | some exe =>
    let executable : Option GoString :=
      if rt.GOOS = "windows".toList then
        if exe.length < ".exe".toList.length then none
        else some (exe.take (exe.length - ".exe".toList.length))
      else some exe
    match executable with
    | none => none
    | some executable =>
      let p : platform := { OS := rt.GOOS, Arch := rt.GOARCH, Ext := ext, Executable := executable }
      match templateRun rt base p with
      | none => some base
      | some out => some out

/-! ## Definitions used to state the properties -/

/-- The event is a launch of the successor, through `open` or `os.StartProcess`, that
ended with the given error (`none`: the launch succeeded). -/
def Event.isLaunch (err : Option GoError) : Event → Bool
  | .cmdStart _ _ x => x = err
  | .startProcess _ _ _ x => x = err
  | _ => false

/-- The event is a call of the exit handler. -/
def Event.isExiter : Event → Bool
  | .exiter _ => true
  | _ => false

/-- The event is a call of `os.Exit`. -/
def Event.isOsExit : Event → Bool
  | .osExit _ => true
  | _ => false

/-- An environment in which every outside call succeeds; the archive it delivers is
empty. -/
def sysQuiet : Sys where
  TempDir := "/tmp".toList
  Args := ["app".toList]
  ENOENT := ⟨"open : no such file or directory".toList⟩
  ReadAll := fun _ => .ok []
  zipNewReader := fun _ => .ok []
  MkdirAll := fun _ _ => none
  OpenFile := fun _ _ _ => none
  entryOpen := fun _ _ => none
  Copy := fun _ _ _ => none
  Open := fun _ _ => none
  ReadFile := fun _ _ => .ok []
  apply := fun _ _ => .ok "/usr/local/bin/app".toList
  applyAppDirectory := fun _ _ => .ok "/Applications/MyApp.app".toList
  cmdStart := fun _ _ _ => none
  Getwd := fun _ => .ok "/home/user".toList
  osextExecutable := fun _ => .ok "/usr/local/bin/app".toList
  StartProcess := fun _ _ _ _ => none

/-- An error used in the examples. -/
def errDenied : GoError := ⟨"permission denied".toList⟩

/-- An exit handler that records the error and returns. -/
def handlerReturns : Trace → Option GoError → Option Nat := fun _ _ => none

/-- The event is one that `unzip` emits. -/
def Event.isUnpack : Event → Bool
  | .readAll _ => true
  | .zipNewReader _ _ => true
  | .mkdirAll _ _ => true
  | .openFile _ _ _ => true
  | .entryOpen _ _ => true
  | .copy _ _ => true
  | .outFileClose _ => true
  | .entryClose _ => true
  | .log _ => true
  | _ => false

/-- The event reports the failure of a step of `unzip`: reading the stream, indexing the
archive, creating a directory, creating, opening or copying a file. -/
def Event.isUnpackFailure : Event → Bool
  | .readAll (some _) => true
  | .zipNewReader _ (some _) => true
  | .mkdirAll _ (some _) => true
  | .openFile _ _ (some _) => true
  | .entryOpen _ (some _) => true
  | .copy _ (some _) => true
  | _ => false

/-- The root-artifact test as `unzip` evaluates it: a directory entry whose name ends in
`.app/`, or a file entry whose name ends in `.exe` or whose `filepath.Dir` is `.`. -/
def rootRule (f : ZipFile) : Bool :=
  if f.IsDir then HasSuffix f.Name ".app/".toList
  else HasSuffix f.Name ".exe".toList || filepath.Dir f.Name = ".".toList

/-- The root-artifact test in the words of the specification: a directory entry whose name
ends in `.app/`, a file entry whose name ends in `.exe`, or a file entry with no directory
separator in its name. -/
def specRule (f : ZipFile) : Bool :=
  (f.IsDir && HasSuffix f.Name ".app/".toList) ||
  (!f.IsDir && HasSuffix f.Name ".exe".toList) ||
  (!f.IsDir && !f.Name.contains '/')

/-- Extraction path of the last entry, in archive order, that passes the test; the empty
path when none does. -/
def lastRoot (rule : ZipFile → Bool) (destDir : GoString) (files : List ZipFile) : GoString :=
  match (files.filter rule).getLast? with
  | some f => filepath.Join [destDir, f.Name]
  | none => []

/-- Value of `rootFileName` after one entry. -/
def stepRoot (destDir : GoString) (root : GoString) (f : ZipFile) : GoString :=
  if rootRule f then filepath.Join [destDir, f.Name] else root

/-- An environment whose archive holds the given entries and in which every call
succeeds. -/
def sysWith (files : List ZipFile) : Sys :=
  { sysQuiet with zipNewReader := fun _ => .ok files }

/-- The archive of the specification example: a bundle directory, a top-level file, a file
inside the bundle. -/
def archiveReadme : List ZipFile :=
  [⟨"app.app/".toList, true, 493⟩, ⟨"readme.txt".toList, false, 420⟩,
    ⟨"app.app/contents".toList, false, 420⟩]

/-- An archive with one file entry whose name starts with `./`. -/
def archiveDotSlash : List ZipFile :=
  [⟨"./readme".toList, false, 420⟩]

/-- The event belongs to the installation of the unpacked artifact: reading the extracted
file back, bundle apply, raw apply. -/
def Event.isInstall : Event → Bool
  | .osOpen _ _ => true
  | .fileRead _ _ => true
  | .fileClose _ => true
  | .applyAppDirectory _ _ => true
  | .apply _ _ => true
  | _ => false

/-- The event belongs to the unpack-and-apply step of a cycle. -/
def Event.isApplyPhase (e : Event) : Bool :=
  e.isUnpack || e.isInstall

/-- The event belongs to the restart step. -/
def Event.isRestartStep : Event → Bool
  | .cmdStart _ _ _ => true
  | .getwd _ => true
  | .osextExecutable _ => true
  | .startProcess _ _ _ _ => true
  | .exiter _ => true
  | .osExit _ => true
  | _ => false

/-- The event reports the failure of the fetch, of the unpacking, or of the apply step. -/
def Event.isCycleFailure : Event → Bool
  | .sourceGet (some _) => true
  | .readAll (some _) => true
  | .zipNewReader _ (some _) => true
  | .mkdirAll _ (some _) => true
  | .openFile _ _ (some _) => true
  | .entryOpen _ (some _) => true
  | .copy _ (some _) => true
  | .osOpen _ (some _) => true
  | .fileRead _ (some _) => true
  | .applyAppDirectory _ (some _) => true
  | .apply _ (some _) => true
  | _ => false

/-- The event is `Source.Get` ending with the given error. -/
def Event.isGetFailure (err : GoError) : Event → Bool
  | .sourceGet (some x) => x = err
  | _ => false

/-- The event is a call of `Source.Get`. -/
def Event.isSourceGet : Event → Bool
  | .sourceGet _ => true
  | _ => false

/-- The event is a successful `Source.Get`. -/
def Event.isFetched : Event → Bool
  | .sourceGet none => true
  | _ => false

/-- The event is the closing of the fetched stream. -/
def Event.isStreamClose : Event → Bool
  | .streamClose => true
  | _ => false

/-- The event is a call of bundle apply or of raw apply. -/
def Event.isApplyCall : Event → Bool
  | .applyAppDirectory _ _ => true
  | .apply _ _ => true
  | _ => false

/-- The event is a call of raw apply. -/
def Event.isRawApply : Event → Bool
  | .apply _ _ => true
  | _ => false

/-- The event is a call of the restart-confirmation callback. -/
def Event.isRestartConfirm : Event → Bool
  | .restartConfirm _ => true
  | _ => false

/-- The event is a negative answer of the upgrade-confirmation callback. -/
def Event.isDecline : Event → Bool
  | .upgradeConfirm _ false => true
  | _ => false

/-- The event is a positive answer of the upgrade-confirmation callback. -/
def Event.isAccept : Event → Bool
  | .upgradeConfirm _ true => true
  | _ => false

/-- A configuration for a raw executable, with no callback at all. -/
def confPlain : Config where
  FetchOnStart := false
  Zip := false
  Source := fun _ => .ok 1024
  RestartConfirmCallback := none
  UpgradeConfirmCallback := none
  ExitCallback := none

/-- A configuration whose upgrade-confirmation callback answers no. -/
def confDecline : Config :=
  { confPlain with UpgradeConfirmCallback := some (fun _ _ => false) }

/-- A configuration whose source fails. -/
def confGetFails : Config :=
  { confPlain with Source := fun _ => .error errDenied,
                   RestartConfirmCallback := some (fun _ => true) }

/-- A configuration with an exit handler that returns. -/
def confHandler : Config :=
  { confPlain with ExitCallback := some handlerReturns }

/-- The event is one that the loop of `unzip` emits for an entry. -/
def Event.isExtract : Event → Bool
  | .mkdirAll _ _ => true
  | .openFile _ _ _ => true
  | .entryOpen _ _ => true
  | .copy _ _ => true
  | .outFileClose _ => true
  | .entryClose _ => true
  | .log _ => true
  | _ => false

/-- The path that the event creates or opens for writing, if any. -/
def Event.target : Event → Option GoString
  | .mkdirAll path _ => some path
  | .openFile path _ _ => some path
  | .copy path _ => some path
  | _ => none

/-- A path element that `filepath.Clean` keeps as it is: neither empty nor `.`. -/
def isRealElem (e : GoString) : Bool :=
  e != [] && e != ".".toList

/-- An archive with one file entry whose name climbs out of the extraction directory. -/
def archiveSlip : List ZipFile :=
  [⟨"../evil".toList, false, 420⟩]

/-- The event is the successful indexing of an archive none of whose entries passes the
root-artifact test. -/
def Event.isIndexNoRoot : Event → Bool
  | .zipNewReader files none => files.all (fun f => !rootRule f)
  | _ => false

/-- An archive with one file in a folder: no entry passes the root-artifact test. -/
def archiveNoRoot : List ZipFile :=
  [⟨"docs/readme.txt".toList, false, 420⟩]

/-- A configuration for an archive, with a restart-confirmation callback. -/
def confZip : Config :=
  { confPlain with Zip := true, RestartConfirmCallback := some (fun _ => true) }

/-- The entry is the bundle directory `<X>.app/`, or a file nested beneath it whose name
does not end in `.exe` and has no `..` element. -/
def bundleEntry (x : GoString) (f : ZipFile) : Prop :=
  f.Name = x ++ ".app/".toList ∨
  (f.IsDir = false ∧ (∃ rest, f.Name = x ++ ".app/".toList ++ rest) ∧
    HasSuffix f.Name ".exe".toList = false ∧ "..".toList ∉ splitSlash f.Name)

/-- The event is a call of bundle apply on the given path. -/
def Event.isBundleApply (path : GoString) : Event → Bool
  | .applyAppDirectory p _ => p = path
  | _ => false

/-- The bundle archive of the specification example. -/
def archiveBundle : List ZipFile :=
  [⟨"MyApp.app/".toList, true, 493⟩, ⟨"MyApp.app/Contents/Info.plist".toList, false, 420⟩,
    ⟨"MyApp.app/Contents/MacOS/MyApp".toList, false, 493⟩]

/-- A bundle archive with a nested file whose name ends in `.exe`. -/
def archiveBundleExe : List ZipFile :=
  [⟨"MyApp.app/".toList, true, 493⟩, ⟨"MyApp.app/Contents/MonoBundle/MyApp.exe".toList,
    false, 493⟩]

/-- A piece of a location string: literal text, or one of the three placeholders. -/
inductive Seg where
  | text (s : GoString)
  | os
  | arch
  | ext
deriving DecidableEq, Repr

/-- The piece as written in the location string. -/
def Seg.source : Seg → GoString
  | .text s => s
  | .os => "\x7b\x7b.OS\x7d\x7d".toList
  | .arch => "\x7b\x7b.Arch\x7d\x7d".toList
  | .ext => "\x7b\x7b.Ext\x7d\x7d".toList

/-- The executable suffix of the platform: `.exe` on Windows, empty otherwise. -/
def exeSuffix (goos : GoString) : GoString :=
  if goos = "windows".toList then ".exe".toList else []

/-- The `platform` value that `replaceURLTemplate` builds, given the executable name. -/
def platformOf (rt : Runtime) (exe : GoString) : platform :=
  { OS := rt.GOOS, Arch := rt.GOARCH, Ext := exeSuffix rt.GOOS, Executable := exe }

/-- The piece after literal substitution: the text itself, the OS name, the architecture
name, the executable suffix. -/
def Seg.value (rt : Runtime) : Seg → GoString
  | .text s => s
  | .os => rt.GOOS
  | .arch => rt.GOARCH
  | .ext => exeSuffix rt.GOOS

/-- The location string made of the pieces. -/
def renderSegs : List Seg → GoString
  | [] => []
  | s :: rest => s.source ++ renderSegs rest

/-- The location string with every placeholder literally replaced. -/
def substSegs (rt : Runtime) : List Seg → GoString
  | [] => []
  | s :: rest => s.value rt ++ substSegs rt rest

/-- The text pieces hold no opening brace. -/
def plainText : List Seg → Bool
  | [] => true
  | .text s :: rest => !s.contains lbrace && plainText rest
  | _ :: rest => plainText rest

/-- The call does not panic: `os.Args` is not empty when it is indexed, and on Windows the
base name of the executable has at least the four bytes that are cut off. -/
def Runtime.safe (rt : Runtime) : Prop :=
  (∀ e, rt.ExecutableRealPath = .error e → rt.Args ≠ []) ∧
  (rt.GOOS = "windows".toList →
    (∀ path, rt.ExecutableRealPath = .ok path → 4 ≤ (rt.Base path).length) ∧
    (∀ e a rest, rt.ExecutableRealPath = .error e → rt.Args = a :: rest →
      4 ≤ (rt.Base a).length))

/-- The last element of a path, used as base name in the examples. -/
def lastElem (p : GoString) : GoString :=
  (splitSlash p).getLast?.getD []

/-- A Linux process on amd64. -/
def rtLinux : Runtime where
  GOOS := "linux".toList
  GOARCH := "amd64".toList
  ExecutableRealPath := .ok "/usr/local/bin/nomad".toList
  Args := ["nomad".toList]
  Base := lastElem
  templateBeyond := fun _ _ => none

/-- A Windows process on amd64. -/
def rtWindows : Runtime where
  GOOS := "windows".toList
  GOARCH := "amd64".toList
  ExecutableRealPath := .ok "nomad.exe".toList
  Args := ["nomad.exe".toList]
  Base := lastElem
  templateBeyond := fun _ _ => none

/-- The location string of the test, `http://localhost/nomad-` followed by the three
placeholders with a dash between the first two. -/
def segsNomad : List Seg :=
  [.text "http://localhost/nomad-".toList, .os, .text "-".toList, .arch, .ext]

/-! ## Theorems -/

/-! ### restart -/

/-- C1. With no exit handler, in the bundle branch and in the plain branch alike: when
the launch of the successor succeeds, `restart` ends the process with status 0 through
`os.Exit`, and when it fails with an error, `restart` returns that very error and
`os.Exit` is not called. -/
theorem restart_no_handler (sys : Sys) (executable : GoString) (h : Trace) :
    ((restart sys none executable h).1.any (Event.isLaunch none) = true →
      (restart sys none executable h).2 = .exited 0 ∧
      (restart sys none executable h).1.getLast? = some (.osExit 0)) ∧
    (∀ e : GoError, (restart sys none executable h).1.any (Event.isLaunch (some e)) = true →
      (restart sys none executable h).2 = .returned (some e) ∧
      (restart sys none executable h).1.any Event.isOsExit = false) := by
  unfold restart afterLaunch
  by_cases hext : filepath.Ext executable = ".app".toList
  · simp only [hext, if_true]
    generalize sys.cmdStart h "open".toList [executable] = r
    cases r <;> simp [Event.isLaunch, Event.isOsExit]
  · simp only [hext, if_false]
    cases sys.Getwd h with
    | error err => simp [Event.isLaunch]
    | ok wd =>
      by_cases hexe : executable = []
      · simp only [hexe, if_true]
        generalize sys.osextExecutable _ = ox
        cases ox with
        | error err => simp [Event.isLaunch]
        | ok exe =>
          simp only []
          generalize sys.StartProcess _ exe sys.Args wd = r
          cases r <;> simp [Event.isLaunch, Event.isOsExit]
      · simp only [hexe, if_false]
        generalize sys.StartProcess _ executable sys.Args wd = r
        cases r <;> simp [Event.isLaunch, Event.isOsExit]

/-- Witness of C1: successful launches of a bundle and of a plain executable end the
process with status 0; a failed launch returns its error. -/
theorem restart_no_handler_witness :
    (restart sysQuiet none "/Applications/MyApp.app".toList []).2 = .exited 0 ∧
    (restart sysQuiet none "/usr/local/bin/app".toList []).2 = .exited 0 ∧
    (restart { sysQuiet with StartProcess := fun _ _ _ _ => some errDenied } none
      "/usr/local/bin/app".toList []).2 = .returned (some errDenied) :=
  ⟨((restart_no_handler sysQuiet "/Applications/MyApp.app".toList []).1 (by decide)).1,
   ((restart_no_handler sysQuiet "/usr/local/bin/app".toList []).1 (by decide)).1,
   ((restart_no_handler { sysQuiet with StartProcess := fun _ _ _ _ => some errDenied }
      "/usr/local/bin/app".toList []).2 errDenied (by decide)).1⟩

/-- C8, as stated, fails: with a handler configured and the working directory not
resolvable, `restart` ends with the error and the handler has not been called. -/
theorem restart_handler_skipped_on_getwd_failure :
    (restart { sysQuiet with Getwd := fun _ => .error errDenied } (some handlerReturns)
      "/usr/local/bin/app".toList []).2 = .returned (some errDenied) ∧
    (restart { sysQuiet with Getwd := fun _ => .error errDenied } (some handlerReturns)
      "/usr/local/bin/app".toList []).1.any Event.isExiter = false := by
  decide

/-- C8, amended. With a handler configured: a launch that ends with `err` (an error, or
`none` after a success) is followed by a call of the handler with `err`, which ends the run
of `restart`; the handler is called at most once; `restart` never calls `os.Exit`. -/
theorem restart_with_handler (sys : Sys) (handler : Trace → Option GoError → Option Nat)
    (executable : GoString) (h : Trace) :
    (∀ err : Option GoError,
      (restart sys (some handler) executable h).1.any (Event.isLaunch err) = true →
      (restart sys (some handler) executable h).1.getLast? = some (.exiter err)) ∧
    (restart sys (some handler) executable h).1.countP Event.isExiter ≤ 1 ∧
    (restart sys (some handler) executable h).1.any Event.isOsExit = false := by
  unfold restart afterLaunch
  by_cases hext : filepath.Ext executable = ".app".toList
  · simp only [hext, if_true]
    generalize sys.cmdStart h "open".toList [executable] = r
    generalize handler _ r = hr
    cases hr <;>
      simp [Event.isLaunch, Event.isOsExit, Event.isExiter, List.countP_cons]
  · simp only [hext, if_false]
    cases sys.Getwd h with
    | error err =>
      simp [Event.isLaunch, Event.isOsExit, Event.isExiter]
    | ok wd =>
      by_cases hexe : executable = []
      · simp only [hexe, if_true]
        generalize sys.osextExecutable _ = ox
        cases ox with
        | error err =>
          simp [Event.isLaunch, Event.isOsExit, Event.isExiter]
        | ok exe =>
          simp only []
          generalize sys.StartProcess _ exe sys.Args wd = r
          generalize handler _ r = hr
          cases hr <;>
            simp [Event.isLaunch, Event.isOsExit, Event.isExiter, List.countP_cons]
      · simp only [hexe, if_false]
        generalize sys.StartProcess _ executable sys.Args wd = r
        generalize handler _ r = hr
        cases hr <;>
          simp [Event.isLaunch, Event.isOsExit, Event.isExiter, List.countP_cons]

/-- Witness of C8 (amended): a failed launch of a plain executable and a successful launch
of a bundle both reach the handler. -/
theorem restart_with_handler_witness :
    (restart { sysQuiet with StartProcess := fun _ _ _ _ => some errDenied }
      (some handlerReturns) "/usr/local/bin/app".toList []).1.getLast?
      = some (.exiter (some errDenied)) ∧
    (restart sysQuiet (some handlerReturns) "/Applications/MyApp.app".toList []).1.getLast?
      = some (.exiter none) :=
  ⟨(restart_with_handler { sysQuiet with StartProcess := fun _ _ _ _ => some errDenied }
      handlerReturns "/usr/local/bin/app".toList []).1 (some errDenied) (by decide),
   (restart_with_handler sysQuiet handlerReturns "/Applications/MyApp.app".toList []).1 none
      (by decide)⟩

/-! ### Lists of events -/

theorem any_false_of_all {P Q : Event → Bool} {l : Trace} (hall : l.all Q = true)
    (hPQ : ∀ e, Q e = true → P e = false) : l.any P = false := by
  simp only [List.any_eq_false, List.all_eq_true] at *
  intro x hx
  simp [hPQ x (hall x hx)]

theorem countP_zero_of_all {P Q : Event → Bool} {l : Trace} (hall : l.all Q = true)
    (hPQ : ∀ e, Q e = true → P e = false) : l.countP P = 0 := by
  rw [List.countP_eq_zero]
  simp only [List.all_eq_true] at hall
  intro x hx
  simp [hPQ x (hall x hx)]

/-! ### unzip -/

theorem stepRoot_dir (d root : GoString) (f : ZipFile) (hd : f.IsDir = true) :
    (if HasSuffix f.Name ".app/".toList then filepath.Join [d, f.Name] else root)
      = stepRoot d root f := by
  simp [stepRoot, rootRule, hd]

theorem stepRoot_file (d root : GoString) (f : ZipFile) (hd : ¬ f.IsDir = true) :
    (if filepath.Dir f.Name = ".".toList then filepath.Join [d, f.Name]
      else if HasSuffix f.Name ".exe".toList then filepath.Join [d, f.Name] else root)
      = stepRoot d root f := by
  simp only [stepRoot, rootRule, hd]
  split_ifs <;> simp_all

/-- The loop of `unzip`: its events are unpack events; when none of them reports a failure
the loop returns the root after all entries; when one does it returns an error. -/
theorem unzipLoop_spec (sys : Sys) (d : GoString) : ∀ (fs : List ZipFile) (root : GoString)
    (h : Trace),
    (unzipLoop sys d fs root h).1.all Event.isUnpack = true ∧
    ((unzipLoop sys d fs root h).1.any Event.isUnpackFailure = false →
      (unzipLoop sys d fs root h).2 = .ok (fs.foldl (stepRoot d) root)) ∧
    ((unzipLoop sys d fs root h).1.any Event.isUnpackFailure = true →
      ∃ e, (unzipLoop sys d fs root h).2 = .error e) := by
  intro fs
  induction fs with
  | nil => intro root h; simp [unzipLoop]
  | cons f fs ih =>
    intro root h
    by_cases hd : f.IsDir = true
    · simp only [unzipLoop, hd, if_true, stepRoot_dir d root f hd, List.foldl_cons]
      cases hm : sys.MkdirAll h (filepath.Join [d, f.Name]) with
      | some err => simp [Event.isUnpack, Event.isUnpackFailure]
      | none =>
        have := ih (stepRoot d root f) (h ++ [.mkdirAll (filepath.Join [d, f.Name]) none])
        simpa [Event.isUnpack, Event.isUnpackFailure] using this
    · simp only [unzipLoop, hd, List.foldl_cons]
      cases hm : sys.MkdirAll h (filepath.Dir (filepath.Join [d, f.Name])) with
      | some err => simp [Event.isUnpack, Event.isUnpackFailure]
      | none =>
        simp only []
        generalize sys.OpenFile _ (filepath.Join [d, f.Name]) f.Mode = r1
        cases r1 with
        | some err => simp [Event.isUnpack, Event.isUnpackFailure]
        | none =>
          simp only []
          generalize sys.entryOpen _ f = r2
          cases r2 with
          | some err => simp [Event.isUnpack, Event.isUnpackFailure]
          | none =>
            simp only []
            generalize sys.Copy _ (filepath.Join [d, f.Name]) f = r3
            cases r3 with
            | some err => simp [Event.isUnpack, Event.isUnpackFailure]
            | none =>
              simp only [stepRoot_file d root f hd]
              have := ih (stepRoot d root f)
                (h ++ ([Event.mkdirAll (filepath.Dir (filepath.Join [d, f.Name])) none] ++
                  [Event.openFile (filepath.Join [d, f.Name]) f.Mode none] ++
                  [Event.entryOpen f.Name none] ++
                  [Event.copy (filepath.Join [d, f.Name]) none,
                    Event.outFileClose (filepath.Join [d, f.Name]), Event.entryClose f.Name]))
              simpa [Event.isUnpack, Event.isUnpackFailure] using this

theorem foldl_stepRoot (d : GoString) : ∀ (fs : List ZipFile) (root : GoString),
    fs.foldl (stepRoot d) root =
      match (fs.filter rootRule).getLast? with
      | some f => filepath.Join [d, f.Name]
      | none => root := by
  intro fs
  induction fs with
  | nil => intro root; simp
  | cons f fs ih =>
    intro root
    rw [List.foldl_cons, ih]
    by_cases hr : rootRule f = true
    · simp only [List.filter_cons, hr, if_true, List.getLast?_cons, stepRoot]
      cases (List.filter rootRule fs).getLast? <;> rfl
    · simp only [List.filter_cons, hr, stepRoot, Bool.false_eq_true, if_false]

/-- The events of `unzip` are unpack events; when the stream holds an archive with entry
table `files` and no event reports a failure, `unzip` returns the root chosen by
`rootRule`; when an event reports a failure, `unzip` returns an error. -/
theorem unzip_spec (sys : Sys) (h : Trace) :
    (unzip sys h).1.all Event.isUnpack = true ∧
    (∀ data files, sys.ReadAll h = .ok data → sys.zipNewReader data = .ok files →
      (unzip sys h).1.any Event.isUnpackFailure = false →
      (unzip sys h).2 = .ok (lastRoot rootRule sys.TempDir files)) ∧
    ((unzip sys h).1.any Event.isUnpackFailure = true → ∃ e, (unzip sys h).2 = .error e) ∧
    ((unzip sys h).1.any Event.isUnpackFailure = false → ∃ p, (unzip sys h).2 = .ok p) := by
  unfold unzip
  cases hr : sys.ReadAll h with
  | error err => simp [Event.isUnpack, Event.isUnpackFailure]
  | ok data =>
    simp only []
    cases hz : sys.zipNewReader data with
    | error err => simp [Event.isUnpack, Event.isUnpackFailure]
    | ok files =>
      have hl := unzipLoop_spec sys sys.TempDir files []
        (h ++ [Event.readAll none, Event.zipNewReader files none])
      simp only [List.any_append, List.all_append, List.any_cons, List.all_cons, List.any_nil,
        List.all_nil, Event.isUnpack, Event.isUnpackFailure, Bool.false_or, Bool.true_and,
        Bool.and_true, Bool.or_false]
      refine ⟨hl.1, ?_, hl.2.2, fun hno => ⟨_, hl.2.1 hno⟩⟩
      intro data1 files1 hd hf hno
      cases hd
      rw [hz] at hf
      cases hf
      rw [hl.2.1 hno, foldl_stepRoot]
      rfl

/-- C3, as stated, fails: a lone file entry named `./readme` has a separator in its name
and no `.exe` suffix, so it passes none of the three rules as the claim words them and the
claimed result is the empty path; `unzip` extracts it without failure and returns its
extraction path. -/
theorem unzip_dot_slash_counterexample :
    lastRoot specRule (sysWith archiveDotSlash).TempDir archiveDotSlash = [] ∧
    (unzip (sysWith archiveDotSlash) []).1.any Event.isUnpackFailure = false ∧
    (unzip (sysWith archiveDotSlash) []).2 = .ok "/tmp/readme".toList :=
  ⟨by decide, by decide, rfl⟩

/-- C3, amended. When the stream holds an archive and every step of the extraction
succeeds, `unzip` returns the extraction path of the last entry, in the order of the entry
table, that is a directory entry whose name ends in `.app/`, a file entry whose name ends in
`.exe`, or a file entry whose `filepath.Dir` is `.` (every name without a separator, and
names such as `./x`); it returns the empty path when there is no such entry. -/
theorem unzip_returns_last_match (sys : Sys) (h : Trace) (data : List Nat)
    (files : List ZipFile) (hread : sys.ReadAll h = .ok data)
    (hindex : sys.zipNewReader data = .ok files)
    (hio : (unzip sys h).1.any Event.isUnpackFailure = false) :
    (unzip sys h).2 = .ok (lastRoot rootRule sys.TempDir files) :=
  (unzip_spec sys h).2.1 data files hread hindex hio

/-- Witness of C3 (amended), the example of the specification: for the entries `app.app/`,
`readme.txt`, `app.app/contents` the root artifact is the path of `readme.txt`. -/
theorem unzip_returns_last_match_witness :
    (unzip (sysWith archiveReadme) []).2 = .ok "/tmp/readme.txt".toList :=
  (unzip_returns_last_match (sysWith archiveReadme) [] [] archiveReadme rfl rfl
    (by decide)).trans rfl

/-! ### Steps of a cycle -/

theorem any_congr_of_all {P P1 Q : Event → Bool} {l : Trace} (hall : l.all Q = true)
    (hPQ : ∀ e, Q e = true → P e = P1 e) : l.any P = l.any P1 := by
  induction l with
  | nil => rfl
  | cons a l ih =>
    simp only [List.all_cons, Bool.and_eq_true] at hall
    simp [List.any_cons, hPQ a hall.1, ih hall.2]

theorem cycleFailure_of_unpack (e : Event) (h : e.isUnpack = true) :
    e.isCycleFailure = e.isUnpackFailure := by
  cases e <;> simp_all [Event.isUnpack] <;>
    rename_i err <;> cases err <;> simp [Event.isCycleFailure, Event.isUnpackFailure]

theorem isApplyPhase_of_unpack (e : Event) (h : e.isUnpack = true) :
    e.isApplyPhase = true := by
  simp [Event.isApplyPhase, h]

theorem all_mono {P Q : Event → Bool} {l : Trace} (hall : l.all P = true)
    (hPQ : ∀ e, P e = true → Q e = true) : l.all Q = true := by
  simp only [List.all_eq_true] at *
  exact fun x hx => hPQ x (hall x hx)

/-- The events of `getFileReader`; it fails exactly when one of them reports a failure. -/
theorem getFileReader_spec (sys : Sys) (p : GoString) (h : Trace) :
    (getFileReader sys p h).1.all Event.isInstall = true ∧
    (getFileReader sys p h).1.any Event.isApplyCall = false ∧
    ((getFileReader sys p h).1.any Event.isCycleFailure = false ↔
      ∃ r, (getFileReader sys p h).2 = .ok r) := by
  unfold getFileReader
  cases osOpen sys h p with
  | some err => simp [Event.isInstall, Event.isApplyCall, Event.isCycleFailure]
  | none =>
    simp only []
    generalize sys.ReadFile _ p = r
    cases r <;>
      simp [Event.isInstall, Event.isApplyCall, Event.isCycleFailure, Event.isUnpackFailure]

/-- The events of `applyUpdateForZip` belong to the apply phase; it returns no error exactly
when none of them reports a failure. -/
theorem applyUpdateForZip_spec (sys : Sys) (h : Trace) :
    (applyUpdateForZip sys h).1.all Event.isApplyPhase = true ∧
    ((applyUpdateForZip sys h).1.any Event.isCycleFailure = false ↔
      (applyUpdateForZip sys h).2.2 = none) := by
  have hu := unzip_spec sys h
  have hcf : (unzip sys h).1.any Event.isCycleFailure = (unzip sys h).1.any Event.isUnpackFailure :=
    any_congr_of_all hu.1 cycleFailure_of_unpack
  have hph : (unzip sys h).1.all Event.isApplyPhase = true := all_mono hu.1 isApplyPhase_of_unpack
  unfold applyUpdateForZip
  cases hr : (unzip sys h).2 with
  | error err =>
    have hfail : (unzip sys h).1.any Event.isUnpackFailure = true := by
      by_contra hno
      obtain ⟨p, hp⟩ := hu.2.2.2 (by simpa using hno)
      rw [hr] at hp
      cases hp
    rw [← hcf] at hfail
    simp [hr, hph, hfail]
  | ok p =>
    have hno : (unzip sys h).1.any Event.isUnpackFailure = false := by
      by_contra hyes
      obtain ⟨e, he⟩ := hu.2.2.1 (by simpa using hyes)
      rw [hr] at he
      cases he
    rw [← hcf] at hno
    simp only [hr]
    by_cases hs : HasSuffix p ".app".toList = true
    · simp only [hs, if_true]
      generalize sys.applyAppDirectory _ p = r
      cases r <;>
        simp [hph, hno, Event.isApplyPhase, Event.isInstall, Event.isUnpack,
          Event.isCycleFailure]
    · simp only [hs]
      have hg := getFileReader_spec sys p (h ++ (unzip sys h).1)
      have hgp : (getFileReader sys p (h ++ (unzip sys h).1)).1.all Event.isApplyPhase = true :=
        all_mono hg.1 (fun e he => by simp [Event.isApplyPhase, he])
      cases hgr : (getFileReader sys p (h ++ (unzip sys h).1)).2 with
      | error err =>
        have hgf : (getFileReader sys p (h ++ (unzip sys h).1)).1.any Event.isCycleFailure
            = true := by
          by_contra hc
          obtain ⟨r, hr1⟩ := hg.2.2.1 (by simpa using hc)
          rw [hgr] at hr1
          cases hr1
        simp [hgr, hph, hgp, hgf]
      | ok file =>
        have hgno : (getFileReader sys p (h ++ (unzip sys h).1)).1.any Event.isCycleFailure
            = false := hg.2.2.2 ⟨file, hgr⟩
        simp only [hgr, if_false]
        generalize sys.apply _ file = r
        cases r <;>
          simp [hph, hgp, hno, hgno, Event.isApplyPhase, Event.isInstall, Event.isUnpack,
            Event.isCycleFailure]

/-- The events of `applyUpdate` belong to the apply phase; it returns no error exactly when
none of them reports a failure. -/
theorem applyUpdate_spec (sys : Sys) (r : Reader) (h : Trace) :
    (applyUpdate sys r h).1.all Event.isApplyPhase = true ∧
    ((applyUpdate sys r h).1.any Event.isCycleFailure = false ↔
      (applyUpdate sys r h).2.2 = none) := by
  unfold applyUpdate
  cases sys.apply h r <;>
    simp [Event.isApplyPhase, Event.isInstall, Event.isUnpack, Event.isCycleFailure,
      Event.isUnpackFailure]

/-- The events of `restart` belong to the restart step. -/
theorem restart_events (sys : Sys) (exiter : Option (Trace → Option GoError → Option Nat))
    (executable : GoString) (h : Trace) :
    (restart sys exiter executable h).1.all Event.isRestartStep = true := by
  unfold restart afterLaunch
  by_cases hext : filepath.Ext executable = ".app".toList
  · simp only [hext, if_true]
    generalize sys.cmdStart h "open".toList [executable] = r
    cases exiter with
    | none => cases r <;> simp [Event.isRestartStep]
    | some handler =>
      simp only []
      generalize handler _ r = hr
      cases hr <;> simp [Event.isRestartStep]
  · simp only [hext, if_false]
    cases sys.Getwd h with
    | error err => simp [Event.isRestartStep]
    | ok wd =>
      simp only []
      have key : ∀ (pre : Trace) (exe : GoString), pre.all Event.isRestartStep = true →
          (pre ++ [Event.startProcess exe sys.Args wd (sys.StartProcess (h ++ pre) exe sys.Args wd)]
            ++ (match exiter with
              | some handler =>
                match handler (h ++ (pre ++ [Event.startProcess exe sys.Args wd
                    (sys.StartProcess (h ++ pre) exe sys.Args wd)]))
                    (sys.StartProcess (h ++ pre) exe sys.Args wd) with
                | some code => ([Event.exiter (sys.StartProcess (h ++ pre) exe sys.Args wd)],
                    Outcome.exited code)
                | none => ([Event.exiter (sys.StartProcess (h ++ pre) exe sys.Args wd)],
                    Outcome.returned (sys.StartProcess (h ++ pre) exe sys.Args wd))
              | none =>
                match sys.StartProcess (h ++ pre) exe sys.Args wd with
                | none => ([Event.osExit 0], Outcome.exited 0)
                | some e => ([], Outcome.returned (some e))).1).all Event.isRestartStep = true := by
        intro pre exe hpre
        generalize sys.StartProcess (h ++ pre) exe sys.Args wd = r
        cases exiter with
        | none => cases r <;> simp [Event.isRestartStep, hpre]
        | some handler =>
          simp only []
          generalize handler _ r = hr
          cases hr <;> simp [Event.isRestartStep, hpre]
      by_cases hexe : executable = []
      · simp only [hexe, if_true]
        generalize sys.osextExecutable _ = ox
        cases ox with
        | error err => simp [Event.isRestartStep]
        | ok exe =>
          exact key ([Event.getwd none] ++ [Event.osextExecutable none]) exe (by simp [Event.isRestartStep])
      · simp only [hexe, if_false]
        exact key ([Event.getwd none] ++ []) executable (by simp [Event.isRestartStep])

/-! ### CheckNow -/

/-- The shapes of a cycle from the fetch on: fetch failed; unpack or apply failed; restart
ended the process; restart returned. -/
theorem cycle_cases (sys : Sys) (u : Updater) (h e1 : Trace) :
    (∃ err, u.cycle sys h e1 =
        (e1 ++ [.sourceGet (some err), .unlock], u, .returned (some err))) ∨
    ∃ (A : Trace) (path : GoString) (aerr : Option GoError),
      A.all Event.isApplyPhase = true ∧
      (A.any Event.isCycleFailure = false ↔ aerr = none) ∧
      (u.conf.Zip = true → ∃ t, applyUpdateForZip sys t = (A, path, aerr)) ∧
      ((∃ err, aerr = some err ∧ u.cycle sys h e1 =
          (e1 ++ [.sourceGet none] ++ A ++ [.streamClose, .unlock],
            { u with executable := path }, .returned (some err))) ∨
       (aerr = none ∧ ∃ (rc R : Trace), rc.all Event.isRestartConfirm = true ∧
          R.all Event.isRestartStep = true ∧
          ((∃ code, u.cycle sys h e1 =
              (e1 ++ [.sourceGet none] ++ A ++ rc ++ R,
                { u with executable := path }, .exited code)) ∨
           (∃ err, u.cycle sys h e1 =
              (e1 ++ [.sourceGet none] ++ A ++ rc ++ R ++ [.streamClose, .unlock],
                { u with executable := path }, .returned err))))) := by
  have hspec : ∀ (t : Trace) (n : Int) (a : Trace × GoString × Option GoError),
      (if u.conf.Zip = true then applyUpdateForZip sys t
        else applyUpdate sys (.progress n) t) = a →
      a.1.all Event.isApplyPhase = true ∧
      (a.1.any Event.isCycleFailure = false ↔ a.2.2 = none) ∧
      (u.conf.Zip = true → ∃ t, applyUpdateForZip sys t = a) := by
    intro t n a ha
    subst ha
    split
    · exact ⟨(applyUpdateForZip_spec sys t).1, (applyUpdateForZip_spec sys t).2,
        fun _ => ⟨t, rfl⟩⟩
    · rename_i hz
      exact ⟨(applyUpdate_spec sys _ t).1, (applyUpdate_spec sys _ t).2,
        fun hz1 => absurd hz1 hz⟩
  generalize hres : u.cycle sys h e1 = res
  unfold Updater.cycle Updater.Restart at hres
  simp only [] at hres
  generalize u.conf.Source _ = src at hres
  cases src with
  | error err =>
    simp only [] at hres
    left
    exact ⟨err, hres.symm⟩
  | ok n =>
    right
    simp only [] at hres
    generalize hA : (if u.conf.Zip = true then applyUpdateForZip sys _
      else applyUpdate sys (.progress n) _) = a at hres
    have hs := hspec _ n a hA
    obtain ⟨A, path, aerr⟩ := a
    refine ⟨A, path, aerr, hs.1, hs.2.1, hs.2.2, ?_⟩
    cases aerr with
    | some err => left; exact ⟨err, rfl, hres.symm⟩
    | none =>
      right
      refine ⟨rfl, ?_⟩
      simp only [] at hres
      rcases hcb2 : u.conf.RestartConfirmCallback with _ | ask <;> simp only [hcb2] at hres
      · generalize hR : restart sys _ _ _ = r at hres
        have hre : r.1.all Event.isRestartStep = true := by
          rw [← hR]
          exact restart_events _ _ _ _
        obtain ⟨R, out⟩ := r
        cases out with
        | exited code => exact ⟨[], R, rfl, hre, Or.inl ⟨code, hres.symm⟩⟩
        | returned err => exact ⟨[], R, rfl, hre, Or.inr ⟨err, hres.symm⟩⟩
      · generalize hR : restart sys _ _ _ = r at hres
        have hre : r.1.all Event.isRestartStep = true := by
          rw [← hR]
          exact restart_events _ _ _ _
        obtain ⟨R, out⟩ := r
        cases out with
        | exited code => exact ⟨[.restartConfirm _], R, rfl, hre, Or.inl ⟨code, hres.symm⟩⟩
        | returned err => exact ⟨[.restartConfirm _], R, rfl, hre, Or.inr ⟨err, hres.symm⟩⟩

/-- A cycle is either declined, or runs from the fetch on after the lock and, when a
callback is set, a positive answer. -/
theorem CheckNow_cases (sys : Sys) (u : Updater) (h : Trace) :
    u.CheckNow sys h =
      ([.lock, .upgradeConfirm "New version found".toList false,
        .log "The user didn't confirm the upgrade.".toList, .unlock], u, .returned none) ∨
    ∃ c : Trace, c.all Event.isAccept = true ∧ u.CheckNow sys h = u.cycle sys h ([.lock] ++ c) := by
  unfold Updater.CheckNow
  simp only []
  rcases hcb : u.conf.UpgradeConfirmCallback with _ | ask
  · right
    exact ⟨[], rfl, rfl⟩
  · simp only []
    cases hans : ask (h ++ [Event.lock]) "New version found".toList
    · left
      rfl
    · right
      exact ⟨[.upgradeConfirm "New version found".toList true], rfl, rfl⟩

theorem accept_facts (e : Event) (he : e.isAccept = true) :
    e.isDecline = false ∧ e.isCycleFailure = false ∧ e.isStreamClose = false ∧
    e.isFetched = false ∧ e.isSourceGet = false ∧ e.isApplyCall = false ∧
    e.isRestartStep = false ∧ e.isRestartConfirm = false := by
  cases e <;> simp_all [Event.isAccept, Event.isDecline, Event.isCycleFailure,
    Event.isStreamClose, Event.isFetched, Event.isSourceGet, Event.isApplyCall,
    Event.isRestartStep, Event.isRestartConfirm]
  rename_i msg answer
  cases answer <;> simp_all [Event.isAccept, Event.isDecline]

theorem accept_not_getFailure (e : Event) (he : e.isAccept = true) (err : GoError) :
    e.isGetFailure err = false := by
  cases e <;> simp_all [Event.isAccept, Event.isGetFailure]

theorem applyPhase_facts (e : Event) (he : e.isApplyPhase = true) :
    e.isDecline = false ∧ e.isStreamClose = false ∧ e.isFetched = false ∧
    e.isSourceGet = false ∧ e.isRestartStep = false ∧ e.isRestartConfirm = false ∧
    (∀ err, e.isGetFailure err = false) := by
  cases e <;> simp_all [Event.isApplyPhase, Event.isUnpack, Event.isInstall, Event.isDecline,
    Event.isStreamClose, Event.isFetched, Event.isSourceGet, Event.isRestartStep,
    Event.isRestartConfirm, Event.isGetFailure]

theorem restartConfirm_facts (e : Event) (he : e.isRestartConfirm = true) :
    e.isDecline = false ∧ e.isCycleFailure = false ∧ e.isStreamClose = false ∧
    e.isFetched = false ∧ e.isSourceGet = false ∧ e.isApplyCall = false ∧
    e.isRestartStep = false := by
  cases e <;> simp_all [Event.isRestartConfirm, Event.isDecline, Event.isCycleFailure,
    Event.isStreamClose, Event.isFetched, Event.isSourceGet, Event.isApplyCall,
    Event.isRestartStep]

theorem restartStep_facts (e : Event) (he : e.isRestartStep = true) :
    e.isDecline = false ∧ e.isCycleFailure = false ∧ e.isStreamClose = false ∧
    e.isFetched = false ∧ e.isSourceGet = false ∧ e.isApplyCall = false ∧
    e.isRestartConfirm = false := by
  cases e <;> simp_all [Event.isRestartStep, Event.isDecline, Event.isCycleFailure,
    Event.isStreamClose, Event.isFetched, Event.isSourceGet, Event.isApplyCall,
    Event.isRestartConfirm]

/-- C2. When the upgrade-confirmation callback is asked and answers no, `CheckNow` returns
no error, `Source.Get` is not called, neither apply function is called, no step of the
restart runs, and the recorded executable path is unchanged. -/
theorem CheckNow_declined (sys : Sys) (u : Updater) (h : Trace)
    (hdecl : (u.CheckNow sys h).1.any Event.isDecline = true) :
    (u.CheckNow sys h).2.2 = .returned none ∧
    (u.CheckNow sys h).1.any Event.isSourceGet = false ∧
    (u.CheckNow sys h).1.any Event.isApplyCall = false ∧
    (u.CheckNow sys h).1.any Event.isRestartStep = false ∧
    (u.CheckNow sys h).2.1.executable = u.executable := by
  rcases CheckNow_cases sys u h with hd | ⟨c, hc, hcyc⟩
  · rw [hd]
    simp [Event.isSourceGet, Event.isApplyCall, Event.isRestartStep]
  · exfalso
    rw [hcyc] at hdecl
    have hcD : c.any Event.isDecline = false :=
      any_false_of_all hc (fun e he => (accept_facts e he).1)
    rcases cycle_cases sys u h ([.lock] ++ c) with ⟨err, hr⟩ | ⟨A, path, aerr, hA, -, -, hr⟩
    · rw [hr] at hdecl
      simp [hcD, Event.isDecline] at hdecl
    · have hAD : A.any Event.isDecline = false :=
        any_false_of_all hA (fun e he => (applyPhase_facts e he).1)
      rcases hr with ⟨err, -, hr⟩ | ⟨-, rc, R, hrc, hR, hr⟩
      · rw [hr] at hdecl
        simp [hcD, hAD, Event.isDecline] at hdecl
      · have hrcD : rc.any Event.isDecline = false :=
          any_false_of_all hrc (fun e he => (restartConfirm_facts e he).1)
        have hRD : R.any Event.isDecline = false :=
          any_false_of_all hR (fun e he => (restartStep_facts e he).1)
        rcases hr with ⟨code, hr⟩ | ⟨err, hr⟩ <;>
        · rw [hr] at hdecl
          simp [hcD, hAD, hrcD, hRD, Event.isDecline] at hdecl

/-- Witness of C2: a callback that answers no. -/
theorem CheckNow_declined_witness :
    (Updater.CheckNow sysQuiet ⟨confDecline, "/usr/local/bin/app".toList⟩ []).2.2
      = .returned none ∧
    (Updater.CheckNow sysQuiet ⟨confDecline, "/usr/local/bin/app".toList⟩ []).1.any
      Event.isSourceGet = false :=
  ⟨(CheckNow_declined sysQuiet ⟨confDecline, "/usr/local/bin/app".toList⟩ [] (by decide)).1,
   (CheckNow_declined sysQuiet ⟨confDecline, "/usr/local/bin/app".toList⟩ [] (by decide)).2.1⟩

/-- C4. When an event of the cycle reports the failure of the fetch, of the unpacking or
of the apply step, `CheckNow` returns an error, the restart-confirmation callback is not
called and no step of the restart runs; when the failing step is `Source.Get`, the error
returned is the one `Get` returned and neither apply function has been called. -/
theorem CheckNow_aborts_on_failure (sys : Sys) (u : Updater) (h : Trace)
    (hfail : (u.CheckNow sys h).1.any Event.isCycleFailure = true) :
    (∃ e, (u.CheckNow sys h).2.2 = .returned (some e)) ∧
    (u.CheckNow sys h).1.any Event.isRestartConfirm = false ∧
    (u.CheckNow sys h).1.any Event.isRestartStep = false ∧
    (∀ e, (u.CheckNow sys h).1.any (Event.isGetFailure e) = true →
      (u.CheckNow sys h).2.2 = .returned (some e) ∧
      (u.CheckNow sys h).1.any Event.isApplyCall = false) := by
  rcases CheckNow_cases sys u h with hd | ⟨c, hc, hcyc⟩
  · rw [hd] at hfail
    simp [Event.isCycleFailure] at hfail
  · rw [hcyc] at hfail ⊢
    have hc1 : c.any Event.isCycleFailure = false :=
      any_false_of_all hc (fun e he => (accept_facts e he).2.1)
    have hc2 : c.any Event.isRestartConfirm = false :=
      any_false_of_all hc (fun e he => (accept_facts e he).2.2.2.2.2.2.2)
    have hc3 : c.any Event.isRestartStep = false :=
      any_false_of_all hc (fun e he => (accept_facts e he).2.2.2.2.2.2.1)
    have hc4 : c.any Event.isApplyCall = false :=
      any_false_of_all hc (fun e he => (accept_facts e he).2.2.2.2.2.1)
    have hc5 : ∀ err, c.any (Event.isGetFailure err) = false := fun err =>
      any_false_of_all hc (fun e he => accept_not_getFailure e he err)
    rcases cycle_cases sys u h ([.lock] ++ c) with ⟨err, hr⟩ | ⟨A, path, aerr, hA, hAf, -, hr⟩
    · rw [hr]
      simp only [List.any_append, List.any_cons, List.any_nil, hc2, hc3, hc4, hc5,
        Event.isRestartConfirm, Event.isRestartStep, Event.isApplyCall, Event.isGetFailure,
        Bool.or_false, Bool.false_or]
      refine ⟨⟨err, rfl⟩, trivial, trivial, ?_⟩
      intro e he
      simp only [decide_eq_true_eq] at he
      subst he
      exact ⟨rfl, trivial⟩
    · have hA2 : A.any Event.isRestartConfirm = false :=
        any_false_of_all hA (fun e he => (applyPhase_facts e he).2.2.2.2.2.1)
      have hA3 : A.any Event.isRestartStep = false :=
        any_false_of_all hA (fun e he => (applyPhase_facts e he).2.2.2.2.1)
      have hA5 : ∀ err, A.any (Event.isGetFailure err) = false := fun err =>
        any_false_of_all hA (fun e he => (applyPhase_facts e he).2.2.2.2.2.2 err)
      rcases hr with ⟨err, -, hr⟩ | ⟨hnone, rc, R, hrc, hR, hr⟩
      · rw [hr]
        simp only [List.any_append, List.any_cons, List.any_nil, hc2, hc3, hc5, hA2, hA3, hA5,
          Event.isRestartConfirm, Event.isRestartStep, Event.isGetFailure,
          Bool.or_false, Bool.false_or]
        exact ⟨⟨err, rfl⟩, trivial, trivial, fun e he => absurd he (by simp)⟩
      · exfalso
        have hA1 : A.any Event.isCycleFailure = false := hAf.2 hnone
        have hrc1 : rc.any Event.isCycleFailure = false :=
          any_false_of_all hrc (fun e he => (restartConfirm_facts e he).2.1)
        have hR1 : R.any Event.isCycleFailure = false :=
          any_false_of_all hR (fun e he => (restartStep_facts e he).2.1)
        rcases hr with ⟨code, hr⟩ | ⟨err, hr⟩ <;>
        · rw [hr] at hfail
          simp [hc1, hA1, hrc1, hR1, Event.isCycleFailure] at hfail

/-- Witness of C4: the source fails; the restart-confirmation callback, although set, is
not called. -/
theorem CheckNow_aborts_on_failure_witness :
    (Updater.CheckNow sysQuiet ⟨confGetFails, []⟩ []).2.2 = .returned (some errDenied) ∧
    (Updater.CheckNow sysQuiet ⟨confGetFails, []⟩ []).1.any Event.isRestartConfirm = false :=
  ⟨((CheckNow_aborts_on_failure sysQuiet ⟨confGetFails, []⟩ [] (by decide)).2.2.2 errDenied
      (by decide)).1,
   (CheckNow_aborts_on_failure sysQuiet ⟨confGetFails, []⟩ [] (by decide)).2.1⟩

/-- C5, as stated, fails: after a successful fetch, apply and launch with no exit handler,
the process is ended by `os.Exit` and the stream has never been closed. -/
theorem CheckNow_exit_skips_close :
    (Updater.CheckNow sysQuiet ⟨confPlain, []⟩ []).1.any Event.isFetched = true ∧
    (Updater.CheckNow sysQuiet ⟨confPlain, []⟩ []).2.2 = .exited 0 ∧
    (Updater.CheckNow sysQuiet ⟨confPlain, []⟩ []).1.countP Event.isStreamClose = 0 := by
  decide

/-- C5, amended. In a cycle whose `Source.Get` succeeded, the stream is closed exactly once
whenever `CheckNow` returns to its caller: after an unpack failure, an apply failure, a
restart failure, and a restart whose handler returns. -/
theorem CheckNow_closes_stream (sys : Sys) (u : Updater) (h : Trace)
    (hget : (u.CheckNow sys h).1.any Event.isFetched = true) :
    ∀ err, (u.CheckNow sys h).2.2 = .returned err →
      (u.CheckNow sys h).1.countP Event.isStreamClose = 1 := by
  rcases CheckNow_cases sys u h with hd | ⟨c, hc, hcyc⟩
  · rw [hd] at hget
    simp [Event.isFetched] at hget
  · rw [hcyc] at hget ⊢
    have hc1 : c.any Event.isFetched = false :=
      any_false_of_all hc (fun e he => (accept_facts e he).2.2.2.1)
    have hc2 : c.countP Event.isStreamClose = 0 :=
      countP_zero_of_all hc (fun e he => (accept_facts e he).2.2.1)
    rcases cycle_cases sys u h ([.lock] ++ c) with ⟨err, hr⟩ | ⟨A, path, aerr, hA, -, -, hr⟩
    · rw [hr] at hget
      simp [hc1, Event.isFetched] at hget
    · have hA2 : A.countP Event.isStreamClose = 0 :=
        countP_zero_of_all hA (fun e he => (applyPhase_facts e he).2.1)
      rcases hr with ⟨err, -, hr⟩ | ⟨-, rc, R, hrc, hR, hr⟩
      · rw [hr]
        simp [hc2, hA2, Event.isStreamClose, List.countP_cons]
      · have hrc2 : rc.countP Event.isStreamClose = 0 :=
          countP_zero_of_all hrc (fun e he => (restartConfirm_facts e he).2.2.1)
        have hR2 : R.countP Event.isStreamClose = 0 :=
          countP_zero_of_all hR (fun e he => (restartStep_facts e he).2.2.1)
        rcases hr with ⟨code, hr⟩ | ⟨err, hr⟩ <;>
        · rw [hr]
          simp [hc2, hA2, hrc2, hR2, Event.isStreamClose, List.countP_cons]

/-- Witness of C5 (amended): with a handler that returns, the stream is closed once. -/
theorem CheckNow_closes_stream_witness :
    (Updater.CheckNow sysQuiet ⟨confHandler, []⟩ []).1.countP Event.isStreamClose = 1 :=
  CheckNow_closes_stream sysQuiet ⟨confHandler, []⟩ [] (by decide) none (by decide)

/-! ### Paths -/

theorem splitSlash_ne_nil (p : GoString) : splitSlash p ≠ [] := by
  cases p with
  | nil => simp [splitSlash]
  | cons c cs =>
    simp only [splitSlash]
    split
    · simp
    · cases splitSlash cs <;> simp [consHead]

theorem consHead_append (c : Char) (l m : List GoString) (hl : l ≠ []) :
    consHead c (l ++ m) = consHead c l ++ m := by
  cases l with
  | nil => exact absurd rfl hl
  | cons e es => rfl

/-- Splitting distributes over a separator. -/
theorem splitSlash_append_slash (a b : GoString) :
    splitSlash (a ++ '/' :: b) = splitSlash a ++ splitSlash b := by
  induction a with
  | nil => simp [splitSlash]
  | cons c cs ih =>
    show splitSlash (c :: (cs ++ '/' :: b)) = splitSlash (c :: cs) ++ splitSlash b
    by_cases hc : c = '/'
    · simp only [splitSlash, hc, if_true, ih, List.cons_append]
    · simp only [splitSlash, hc, if_false, ih]
      exact consHead_append c _ _ (splitSlash_ne_nil cs)

/-- Without `..` elements the loop of `Clean` only collects the real elements. -/
theorem foldl_cleanStep_no_dotdot (r : Bool) : ∀ (l out : List GoString),
    "..".toList ∉ l →
    l.foldl (cleanStep r) out = (l.filter isRealElem).reverse ++ out := by
  intro l
  induction l with
  | nil => intro out _; rfl
  | cons e l ih =>
    intro out hno
    have hne : e ≠ "..".toList := fun h => hno (h ▸ List.mem_cons_self _ _)
    have hl : "..".toList ∉ l := fun h => hno (List.mem_cons_of_mem _ h)
    rw [List.foldl_cons, ih _ hl]
    by_cases h1 : e = [] ∨ e = ".".toList
    · have hreal : isRealElem e = false := by
        rcases h1 with h | h <;> subst h <;> rfl
      have hstep : cleanStep r out e = out := by
        unfold cleanStep
        rw [if_pos h1]
      rw [hstep, List.filter_cons, hreal]
      rfl
    · have hreal : isRealElem e = true := by
        have h2 := not_or.mp h1
        simp only [isRealElem, Bool.and_eq_true, bne_iff_ne, ne_eq]
        exact h2
      have hstep : cleanStep r out e = e :: out := by
        unfold cleanStep
        rw [if_neg h1, if_neg hne]
      rw [hstep, List.filter_cons, hreal]
      simp

theorem isRooted_append (d rest : GoString) (hd : d ≠ []) :
    isRooted (d ++ rest) = isRooted d := by
  cases d with
  | nil => exact absurd rfl hd
  | cons c cs => rfl

/-- The extraction path of a name without `..` elements: the root and the elements of the
cleaned directory, followed by the real elements of the name. -/
theorem Join_no_dotdot (d name : GoString) (hd : d ≠ [])
    (hname : "..".toList ∉ splitSlash name) :
    filepath.Join [d, name] =
      renderPath (isRooted d) (cleanElems (isRooted d) d ++ (splitSlash name).filter isRealElem) := by
  have hjoin : joinSlash [d, name] = d ++ '/' :: name := by simp [joinSlash]
  simp only [filepath.Join, hd, if_false, hjoin, filepath.Clean]
  have hne : d ++ '/' :: name ≠ [] := by simp
  simp only [hne, if_false, isRooted_append d _ hd]
  congr 1
  simp only [cleanElems, splitSlash_append_slash, List.foldl_append]
  rw [foldl_cleanStep_no_dotdot _ _ _ hname]
  simp

/-- The events of the loop of `unzip` are per-entry events, and every path one of them
creates or opens for writing is the extraction path of an entry, or the directory of
one. -/
theorem unzipLoop_events (sys : Sys) (d : GoString) : ∀ (fs : List ZipFile) (root : GoString)
    (h : Trace), ∀ e ∈ (unzipLoop sys d fs root h).1,
    e.isExtract = true ∧
    ∀ p, e.target = some p →
      ∃ f ∈ fs, p = filepath.Join [d, f.Name] ∨ p = filepath.Dir (filepath.Join [d, f.Name]) := by
  intro fs
  induction fs with
  | nil => intro root h e he; simp [unzipLoop] at he
  | cons f fs ih =>
    intro root h e he
    have lift : ∀ (root1 : GoString) (h1 : Trace), e ∈ (unzipLoop sys d fs root1 h1).1 →
        e.isExtract = true ∧ ∀ p, e.target = some p →
          ∃ g ∈ f :: fs, p = filepath.Join [d, g.Name] ∨
            p = filepath.Dir (filepath.Join [d, g.Name]) := by
      intro root1 h1 hmem
      obtain ⟨h1e, h2e⟩ := ih root1 h1 e hmem
      refine ⟨h1e, fun p hp => ?_⟩
      obtain ⟨g, hg, hgp⟩ := h2e p hp
      exact ⟨g, List.mem_cons_of_mem _ hg, hgp⟩
    have here : ∀ (q : GoString), (q = filepath.Join [d, f.Name] ∨
        q = filepath.Dir (filepath.Join [d, f.Name])) → ∀ p, some q = some p →
        ∃ g ∈ f :: fs, p = filepath.Join [d, g.Name] ∨
          p = filepath.Dir (filepath.Join [d, g.Name]) := by
      intro q hq p hp
      cases hp
      exact ⟨f, List.mem_cons_self _ _, hq⟩
    by_cases hd : f.IsDir = true
    · simp only [unzipLoop, hd, if_true] at he
      cases hm : sys.MkdirAll h (filepath.Join [d, f.Name]) with
      | some err =>
        simp only [hm, List.mem_cons, List.mem_singleton, List.not_mem_nil, or_false] at he
        rcases he with rfl | rfl
        · exact ⟨rfl, here _ (Or.inl rfl)⟩
        · exact ⟨rfl, fun p hp => by cases hp⟩
      | none =>
        simp only [hm, List.mem_cons] at he
        rcases he with rfl | he
        · exact ⟨rfl, here _ (Or.inl rfl)⟩
        · exact lift _ _ he
    · simp only [unzipLoop, hd, Bool.false_eq_true, if_false] at he
      cases hm : sys.MkdirAll h (filepath.Dir (filepath.Join [d, f.Name])) with
      | some err =>
        simp only [hm, List.mem_singleton] at he
        subst he
        exact ⟨rfl, here _ (Or.inr rfl)⟩
      | none =>
        simp only [hm] at he
        generalize sys.OpenFile _ (filepath.Join [d, f.Name]) f.Mode = r1 at he
        cases r1 with
        | some err =>
          simp only [List.mem_append, List.mem_singleton] at he
          rcases he with rfl | rfl
          · exact ⟨rfl, here _ (Or.inr rfl)⟩
          · exact ⟨rfl, here _ (Or.inl rfl)⟩
        | none =>
          simp only [] at he
          generalize sys.entryOpen _ f = r2 at he
          cases r2 with
          | some err =>
            simp only [List.mem_append, List.mem_singleton] at he
            rcases he with (rfl | rfl) | rfl
            · exact ⟨rfl, here _ (Or.inr rfl)⟩
            · exact ⟨rfl, here _ (Or.inl rfl)⟩
            · exact ⟨rfl, fun p hp => by cases hp⟩
          | none =>
            simp only [] at he
            generalize sys.Copy _ (filepath.Join [d, f.Name]) f = r3 at he
            cases r3 with
            | some err =>
              simp only [List.mem_append, List.mem_singleton, List.mem_cons, List.not_mem_nil, or_false] at he
              rcases he with ((rfl | rfl) | rfl) | rfl | rfl | rfl
              · exact ⟨rfl, here _ (Or.inr rfl)⟩
              · exact ⟨rfl, here _ (Or.inl rfl)⟩
              · exact ⟨rfl, fun p hp => by cases hp⟩
              · exact ⟨rfl, here _ (Or.inl rfl)⟩
              · exact ⟨rfl, fun p hp => by cases hp⟩
              · exact ⟨rfl, fun p hp => by cases hp⟩
            | none =>
              simp only [List.mem_append, List.mem_singleton, List.mem_cons, List.not_mem_nil, or_false] at he
              rcases he with (((rfl | rfl) | rfl) | rfl | rfl | rfl) | he
              · exact ⟨rfl, here _ (Or.inr rfl)⟩
              · exact ⟨rfl, here _ (Or.inl rfl)⟩
              · exact ⟨rfl, fun p hp => by cases hp⟩
              · exact ⟨rfl, here _ (Or.inl rfl)⟩
              · exact ⟨rfl, fun p hp => by cases hp⟩
              · exact ⟨rfl, fun p hp => by cases hp⟩
              · exact lift _ _ he

/-- C9, as stated, fails: for the entry name `../evil` and the temporary directory `/tmp`,
`unzip` creates the file `/evil`, which is not below `/tmp`. -/
theorem unzip_dotdot_escapes :
    Event.openFile "/evil".toList 420 none ∈ (unzip (sysWith archiveSlip) []).1 ∧
    (sysWith archiveSlip).TempDir = "/tmp".toList ∧
    ¬ ("/tmp".toList <+: "/evil".toList) := by
  decide

/-- C9, amended. `unzip` extracts into `os.TempDir()` itself. Every path it creates or opens
for writing is the extraction path of an entry of the archive, or the directory of such a
path; and for an entry whose name has no `..` element the extraction path has the root and
the elements of the cleaned temporary directory, followed by the elements of the name
(empty and `.` elements dropped), so it lies inside the temporary directory with the
structure of the name preserved. -/
theorem unzip_paths (sys : Sys) (h : Trace) (data : List Nat) (files : List ZipFile)
    (hread : sys.ReadAll h = .ok data) (hindex : sys.zipNewReader data = .ok files)
    (htmp : sys.TempDir ≠ []) :
    (∀ e ∈ (unzip sys h).1, ∀ p, e.target = some p →
      ∃ f ∈ files, p = filepath.Join [sys.TempDir, f.Name] ∨
        p = filepath.Dir (filepath.Join [sys.TempDir, f.Name])) ∧
    (∀ f ∈ files, "..".toList ∉ splitSlash f.Name →
      filepath.Join [sys.TempDir, f.Name] =
        renderPath (isRooted sys.TempDir)
          (cleanElems (isRooted sys.TempDir) sys.TempDir ++
            (splitSlash f.Name).filter isRealElem) ∧
      filepath.Clean sys.TempDir =
        renderPath (isRooted sys.TempDir) (cleanElems (isRooted sys.TempDir) sys.TempDir)) := by
  constructor
  · intro e he p hp
    unfold unzip at he
    simp only [hread, hindex, List.mem_append, List.mem_cons, List.mem_singleton,
      List.not_mem_nil, or_false] at he
    rcases he with (rfl | rfl) | he
    · cases hp
    · cases hp
    · exact (unzipLoop_events sys sys.TempDir files [] _ e he).2 p hp
  · intro f _ hname
    refine ⟨Join_no_dotdot _ _ htmp hname, ?_⟩
    simp [filepath.Clean, htmp]

/-- Witness of C9 (amended): the nested file of the specification example is written at
`/tmp/app.app/contents`. -/
theorem unzip_paths_witness :
    filepath.Join [(sysWith archiveReadme).TempDir, "app.app/contents".toList] =
      renderPath true ["tmp".toList, "app.app".toList, "contents".toList] :=
  ((unzip_paths (sysWith archiveReadme) [] [] archiveReadme rfl rfl (by decide)).2
    ⟨"app.app/contents".toList, false, 420⟩ (by decide) (by decide)).1.trans (by decide)

/-! ### An archive without root artifact -/

theorem lastRoot_none (d : GoString) (files : List ZipFile)
    (hno : ∀ f ∈ files, rootRule f = false) : lastRoot rootRule d files = [] := by
  have : files.filter rootRule = [] := by
    rw [List.filter_eq_nil_iff]
    intro f hf
    simp [hno f hf]
  simp [lastRoot, this]

theorem extract_not_index (e : Event) (he : e.isExtract = true) : e.isIndexNoRoot = false := by
  cases e <;> simp_all [Event.isExtract, Event.isIndexNoRoot]

theorem install_facts (e : Event) (he : e.isInstall = true) : e.isIndexNoRoot = false := by
  cases e <;> simp_all [Event.isInstall, Event.isIndexNoRoot]

theorem accept_not_index (e : Event) (he : e.isAccept = true) : e.isIndexNoRoot = false := by
  cases e <;> simp_all [Event.isAccept, Event.isIndexNoRoot]

theorem restartConfirm_not_index (e : Event) (he : e.isRestartConfirm = true) :
    e.isIndexNoRoot = false := by
  cases e <;> simp_all [Event.isRestartConfirm, Event.isIndexNoRoot]

theorem restartStep_not_index (e : Event) (he : e.isRestartStep = true) :
    e.isIndexNoRoot = false := by
  cases e <;> simp_all [Event.isRestartStep, Event.isIndexNoRoot]

theorem unpack_not_applyCall (e : Event) (he : e.isUnpack = true) : e.isApplyCall = false := by
  cases e <;> simp_all [Event.isUnpack, Event.isApplyCall]

/-- When `unzip` has indexed an archive without root artifact, it fails or returns the
empty path. -/
theorem unzip_no_root (sys : Sys) (h : Trace)
    (hidx : (unzip sys h).1.any Event.isIndexNoRoot = true) :
    (∃ e, (unzip sys h).2 = .error e) ∨ (unzip sys h).2 = .ok [] := by
  have hspec := unzip_spec sys h
  by_cases hf : (unzip sys h).1.any Event.isUnpackFailure = true
  · exact Or.inl (hspec.2.2.1 hf)
  · right
    have hf2 : (unzip sys h).1.any Event.isUnpackFailure = false := by simpa using hf
    cases hr : sys.ReadAll h with
    | error err =>
      simp [unzip, hr, Event.isIndexNoRoot] at hidx
    | ok data =>
      cases hz : sys.zipNewReader data with
      | error err =>
        simp [unzip, hr, hz, Event.isIndexNoRoot] at hidx
      | ok files =>
        have hloop : (unzipLoop sys sys.TempDir files []
            (h ++ [Event.readAll none, Event.zipNewReader files none])).1.any
              Event.isIndexNoRoot = false := by
          rw [List.any_eq_false]
          intro e he
          have := extract_not_index e (unzipLoop_events sys sys.TempDir files [] _ e he).1
          simp [this]
        have hall : files.all (fun f => !rootRule f) = true := by
          simpa [unzip, hr, hz, Event.isIndexNoRoot, hloop] using hidx
        rw [hspec.2.1 data files hr hz hf2, lastRoot_none]
        intro f hf
        have := List.all_eq_true.mp hall f hf
        simpa using this

/-- When `applyUpdateForZip` has indexed an archive without root artifact, it returns an
error and calls neither apply function. -/
theorem applyUpdateForZip_no_root (sys : Sys) (h : Trace)
    (hidx : (applyUpdateForZip sys h).1.any Event.isIndexNoRoot = true) :
    (∃ e, (applyUpdateForZip sys h).2.2 = some e) ∧
    (applyUpdateForZip sys h).1.any Event.isApplyCall = false := by
  have hu := unzip_spec sys h
  have huA : (unzip sys h).1.any Event.isApplyCall = false :=
    any_false_of_all hu.1 unpack_not_applyCall
  unfold applyUpdateForZip at hidx ⊢
  cases hr : (unzip sys h).2 with
  | error err =>
    simp only [hr]
    exact ⟨⟨_, rfl⟩, huA⟩
  | ok p =>
    simp only [hr] at hidx ⊢
    have hg := getFileReader_spec sys p (h ++ (unzip sys h).1)
    have hgI : (getFileReader sys p (h ++ (unzip sys h).1)).1.any Event.isIndexNoRoot = false :=
      any_false_of_all hg.1 install_facts
    have hu1 : (unzip sys h).1.any Event.isIndexNoRoot = true := by
      by_contra hno
      have hno2 : (unzip sys h).1.any Event.isIndexNoRoot = false := by simpa using hno
      revert hidx
      split
      · split <;> simp [hno2, Event.isIndexNoRoot]
      · split
        · simp [hno2, hgI]
        · split <;> simp [hno2, hgI, Event.isIndexNoRoot]
    have hp : p = [] := by
      rcases unzip_no_root sys h hu1 with ⟨e, he⟩ | hok
      · rw [hr] at he
        cases he
      · rw [hr] at hok
        cases hok
        rfl
    subst hp
    have hsuf : HasSuffix [] ".app".toList = false := by decide
    simp only [hsuf, Bool.false_eq_true, if_false, getFileReader, osOpen, if_true]
    simp [huA, Event.isApplyCall]

/-- C10, as stated, fails: the lone file entry `./readme` passes none of the three rules as
the specification words them (it has a separator in its name and no `.exe` suffix), yet
`unzip` returns its extraction path, and the cycle with `Zip` set calls raw apply, runs the
restart and ends the process with status 0 instead of returning an error. -/
theorem CheckNow_dot_slash_installs :
    archiveDotSlash.all (fun f => !specRule f) = true ∧
    (unzip (sysWith archiveDotSlash) []).2 = .ok "/tmp/readme".toList ∧
    (Updater.CheckNow (sysWith archiveDotSlash) ⟨confZip, []⟩ []).1.any Event.isRawApply
      = true ∧
    (Updater.CheckNow (sysWith archiveDotSlash) ⟨confZip, []⟩ []).1.any Event.isRestartStep
      = true ∧
    (Updater.CheckNow (sysWith archiveDotSlash) ⟨confZip, []⟩ []).2.2 = .exited 0 :=
  ⟨by decide, rfl, by decide, by decide, by decide⟩

/-- C10, amended. When no entry of the archive passes the root-artifact test as `unzip`
evaluates it (a directory entry whose name ends in `.app/`, a file entry whose name ends in
`.exe`, a file entry whose `filepath.Dir` is `.`), `unzip` returns the empty path once every
extraction step has succeeded; and a cycle with `Zip` set that has indexed such an archive
ends with an error returned by `CheckNow`, without a call of bundle apply or raw apply and
without any step of the restart. -/
theorem CheckNow_no_root_artifact (sys : Sys) (u : Updater) (h : Trace) :
    (∀ data files, sys.ReadAll h = .ok data → sys.zipNewReader data = .ok files →
      (∀ f ∈ files, rootRule f = false) →
      (unzip sys h).1.any Event.isUnpackFailure = false → (unzip sys h).2 = .ok []) ∧
    (u.conf.Zip = true → (u.CheckNow sys h).1.any Event.isIndexNoRoot = true →
      (∃ e, (u.CheckNow sys h).2.2 = .returned (some e)) ∧
      (u.CheckNow sys h).1.any Event.isApplyCall = false ∧
      (u.CheckNow sys h).1.any Event.isRestartStep = false) := by
  constructor
  · intro data files hread hindex hno hio
    rw [(unzip_spec sys h).2.1 data files hread hindex hio, lastRoot_none _ _ hno]
  · intro hzip hidx
    rcases CheckNow_cases sys u h with hd | ⟨c, hc, hcyc⟩
    · rw [hd] at hidx
      simp [Event.isIndexNoRoot] at hidx
    · rw [hcyc] at hidx ⊢
      have hc1 : c.any Event.isIndexNoRoot = false :=
        any_false_of_all hc accept_not_index
      have hc2 : c.any Event.isApplyCall = false :=
        any_false_of_all hc (fun e he => (accept_facts e he).2.2.2.2.2.1)
      have hc3 : c.any Event.isRestartStep = false :=
        any_false_of_all hc (fun e he => (accept_facts e he).2.2.2.2.2.2.1)
      rcases cycle_cases sys u h ([.lock] ++ c) with ⟨err, hr⟩ | ⟨A, path, aerr, hA, -, hZ, hr⟩
      · rw [hr] at hidx
        simp [hc1, Event.isIndexNoRoot] at hidx
      · obtain ⟨t, ht⟩ := hZ hzip
        have hA3 : A.any Event.isRestartStep = false :=
          any_false_of_all hA (fun e he => (applyPhase_facts e he).2.2.2.2.1)
        have hAidx : A.any Event.isIndexNoRoot = true := by
          rcases hr with ⟨err, -, hr⟩ | ⟨-, rc, R, hrc, hR, hr⟩
          · rw [hr] at hidx
            simpa [hc1, Event.isIndexNoRoot] using hidx
          · have hrc1 : rc.any Event.isIndexNoRoot = false :=
              any_false_of_all hrc restartConfirm_not_index
            have hR1 : R.any Event.isIndexNoRoot = false :=
              any_false_of_all hR restartStep_not_index
            rcases hr with ⟨code, hr⟩ | ⟨err, hr⟩ <;>
            · rw [hr] at hidx
              simpa [hc1, hrc1, hR1, Event.isIndexNoRoot] using hidx
        have hz := applyUpdateForZip_no_root sys t (by rw [ht]; exact hAidx)
        rw [ht] at hz
        obtain ⟨⟨e, he⟩, hA2⟩ := hz
        simp only at he hA2
        rcases hr with ⟨err, -, hr⟩ | ⟨hnone, -⟩
        · rw [hr]
          simp [hc2, hc3, hA2, hA3, Event.isApplyCall, Event.isRestartStep]
        · rw [hnone] at he
          cases he

/-- Witness of C10 (amended): an archive holding only `docs/readme.txt`. -/
theorem CheckNow_no_root_artifact_witness :
    (unzip (sysWith archiveNoRoot) []).2 = .ok [] ∧
    (Updater.CheckNow (sysWith archiveNoRoot) ⟨confZip, []⟩ []).1.any Event.isApplyCall
      = false ∧
    (Updater.CheckNow (sysWith archiveNoRoot) ⟨confZip, []⟩ []).1.any Event.isRestartStep
      = false :=
  ⟨(CheckNow_no_root_artifact (sysWith archiveNoRoot) ⟨confZip, []⟩ []).1 [] archiveNoRoot
      rfl rfl (by decide) (by decide),
   ((CheckNow_no_root_artifact (sysWith archiveNoRoot) ⟨confZip, []⟩ []).2 rfl (by decide)).2.1,
   ((CheckNow_no_root_artifact (sysWith archiveNoRoot) ⟨confZip, []⟩ []).2 rfl
      (by decide)).2.2⟩

/-! ### Bundle directories -/

theorem splitSlash_no_slash (t : GoString) (ht : '/' ∉ t) : splitSlash t = [t] := by
  induction t with
  | nil => rfl
  | cons c cs ih =>
    have hc : c ≠ '/' := fun h => ht (h ▸ List.mem_cons_self _ _)
    have hcs : '/' ∉ cs := fun h => ht (List.mem_cons_of_mem _ h)
    simp only [splitSlash, hc, if_false, ih hcs, consHead]

/-- The last element of a split of `y ++ t`, for `t` without separator, ends with `t`. -/
theorem splitSlash_last_suffix (t : GoString) (ht : '/' ∉ t) : ∀ y : GoString,
    ∃ init last, splitSlash (y ++ t) = init ++ [last] ∧ t <:+ last := by
  intro y
  induction y with
  | nil => exact ⟨[], t, by simp [splitSlash_no_slash t ht], List.suffix_refl t⟩
  | cons c cs ih =>
    obtain ⟨init, last, hsplit, hsuf⟩ := ih
    show ∃ init last, splitSlash (c :: (cs ++ t)) = init ++ [last] ∧ t <:+ last
    by_cases hc : c = '/'
    · exact ⟨[] :: init, last, by simp [splitSlash, hc, hsplit], hsuf⟩
    · cases init with
      | nil =>
        refine ⟨[], c :: last, by simp [splitSlash, hc, hsplit, consHead], ?_⟩
        exact hsuf.trans (List.suffix_cons c last)
      | cons e es =>
        exact ⟨(c :: e) :: es, last, by simp [splitSlash, hc, hsplit, consHead], hsuf⟩

theorem cleanStep_real (r : Bool) (out : List GoString) (e : GoString)
    (h1 : e ≠ []) (h2 : e ≠ ".".toList) (h3 : e ≠ "..".toList) :
    cleanStep r out e = e :: out := by
  unfold cleanStep
  rw [if_neg (by rintro (h | h) <;> contradiction), if_neg h3]

theorem cleanStep_empty (r : Bool) (out : List GoString) : cleanStep r out [] = out := by
  unfold cleanStep
  rw [if_pos (Or.inl rfl)]

theorem suffix_app_real (e : GoString) (h : ".app".toList <:+ e) :
    e ≠ [] ∧ e ≠ ".".toList ∧ e ≠ "..".toList := by
  have hlen := h.length_le
  have h4 : (".app".toList).length = 4 := rfl
  rw [h4] at hlen
  refine ⟨?_, ?_, ?_⟩ <;> intro he <;> subst he <;> simp at hlen

theorem joinSlash_append_last (l : List GoString) (e : GoString) :
    e <:+ joinSlash (l ++ [e]) := by
  induction l with
  | nil => exact List.suffix_refl e
  | cons a l ih =>
    cases l with
    | nil =>
      show e <:+ a ++ '/' :: e
      exact (List.suffix_cons '/' e).trans (List.suffix_append a _)
    | cons b l =>
      show e <:+ a ++ '/' :: joinSlash (b :: l ++ [e])
      exact ih.trans ((List.suffix_cons '/' _).trans (List.suffix_append a _))

theorem renderPath_suffix (r : Bool) (elems : List GoString) (e : GoString) (he : e ≠ [])
    (h : e <:+ joinSlash elems) : e <:+ renderPath r elems := by
  unfold renderPath
  cases r with
  | true => exact h.trans (List.suffix_cons '/' _)
  | false =>
    have hne : joinSlash elems ≠ [] := by
      intro h0
      rw [h0] at h
      exact he (List.suffix_nil.mp h)
    simp only [Bool.false_eq_true, if_false, hne]
    exact h

/-- A cleaned path whose text ends in `.app/` ends in `.app`. -/
theorem Clean_bundle_suffix (s : GoString) :
    ".app".toList <:+ filepath.Clean (s ++ ".app/".toList) := by
  have hsplit : s ++ ".app/".toList = (s ++ ".app".toList) ++ '/' :: [] := by
    simp
  have hne : s ++ ".app/".toList ≠ [] := by simp
  obtain ⟨init, last, hl, hsuf⟩ := splitSlash_last_suffix ".app".toList (by decide) s
  obtain ⟨h1, h2, h3⟩ := suffix_app_real last hsuf
  unfold filepath.Clean
  rw [if_neg hne]
  apply renderPath_suffix _ _ _ (by decide)
  have helems : cleanElems (isRooted (s ++ ".app/".toList)) (s ++ ".app/".toList) =
      (List.foldl (cleanStep (isRooted (s ++ ".app/".toList))) [] init).reverse ++ [last] := by
    unfold cleanElems
    rw [hsplit, splitSlash_append_slash, hl]
    simp only [splitSlash, List.foldl_append, List.foldl_cons, List.foldl_nil]
    rw [cleanStep_real _ _ _ h1 h2 h3, cleanStep_empty]
    simp
  rw [helems]
  exact hsuf.trans (joinSlash_append_last _ _)

/-- The extraction path of an entry named `<X>.app/` ends in `.app`. -/
theorem Join_bundle_suffix (d x : GoString) :
    HasSuffix (filepath.Join [d, x ++ ".app/".toList]) ".app".toList = true := by
  unfold HasSuffix
  rw [List.isSuffixOf_iff_suffix]
  by_cases hd : d = []
  · have hx : x ++ ".app/".toList ≠ [] := by simp
    simp only [filepath.Join, hd, if_true, hx, if_false, joinSlash]
    exact Clean_bundle_suffix x
  · have hj : joinSlash [d, x ++ ".app/".toList] = (d ++ '/' :: x) ++ ".app/".toList := by
      simp [joinSlash]
    simp only [filepath.Join, hd, if_false, hj]
    exact Clean_bundle_suffix _

theorem dropWhile_append_slash (br ar : GoString) :
    (br ++ '/' :: ar).dropWhile (fun c => c != '/') =
      br.dropWhile (fun c => c != '/') ++ '/' :: ar := by
  induction br with
  | nil => simp [List.dropWhile]
  | cons c cs ih =>
    by_cases hc : c = '/'
    · simp [List.dropWhile, hc]
    · have hb : (c != '/') = true := by simp [hc]
      simp only [List.cons_append, List.dropWhile_cons, hb, if_true, ih]

theorem dirPart_append_slash (a b : GoString) :
    dirPart (a ++ '/' :: b) = a ++ '/' :: dirPart b := by
  unfold dirPart
  simp [dropWhile_append_slash]

theorem dirPart_no_slash (b : GoString) (hb : '/' ∉ b) : dirPart b = [] := by
  unfold dirPart
  rw [List.reverse_eq_nil_iff, List.dropWhile_eq_nil_iff]
  intro c hc
  have : c ≠ '/' := fun h => hb (h ▸ List.mem_reverse.mp hc)
  simp [this]

theorem exists_last_slash (p : GoString) (hp : '/' ∈ p) :
    ∃ a b, p = a ++ '/' :: b ∧ '/' ∉ b := by
  induction p with
  | nil => simp at hp
  | cons c cs ih =>
    by_cases hcs : '/' ∈ cs
    · obtain ⟨a, b, hab, hb⟩ := ih hcs
      exact ⟨c :: a, b, by simp [hab], hb⟩
    · have hc : c = '/' := by
        rcases List.mem_cons.mp hp with h | h
        · exact h.symm
        · exact absurd h hcs
      exact ⟨[], cs, by simp [hc], hcs⟩

/-- The elements of the directory part of a path are elements of the path, or empty. -/
theorem splitSlash_dirPart (p : GoString) :
    ∀ e ∈ splitSlash (dirPart p), e = [] ∨ e ∈ splitSlash p := by
  intro e he
  by_cases hp : '/' ∈ p
  · obtain ⟨a, b, hab, hb⟩ := exists_last_slash p hp
    subst hab
    rw [dirPart_append_slash, dirPart_no_slash b hb, splitSlash_append_slash] at he
    rw [splitSlash_append_slash]
    rcases List.mem_append.mp he with h | h
    · exact Or.inr (List.mem_append_left _ h)
    · left
      simpa [splitSlash] using h
  · rw [dirPart_no_slash p hp] at he
    left
    simpa [splitSlash] using he

theorem renderPath_ne_dot (r : Bool) (elems : List GoString) (hne : elems ≠ [])
    (hreal : ∀ e ∈ elems, isRealElem e = true) : renderPath r elems ≠ ".".toList := by
  unfold renderPath
  cases r with
  | true =>
    intro h
    simp at h
  | false =>
    cases elems with
    | nil => exact absurd rfl hne
    | cons e es =>
      have he := hreal e (List.mem_cons_self _ _)
      simp only [isRealElem, Bool.and_eq_true, bne_iff_ne, ne_eq] at he
      cases es with
      | nil =>
        simp only [joinSlash, Bool.false_eq_true, if_false, he.1]
        exact he.2
      | cons e2 es =>
        have hj : joinSlash (e :: e2 :: es) = e ++ '/' :: joinSlash (e2 :: es) := rfl
        have hj0 : joinSlash (e :: e2 :: es) ≠ [] := by
          rw [hj]
          simp
        simp only [Bool.false_eq_true, if_false, hj0]
        intro h
        have hlen := congrArg List.length h
        rw [hj] at hlen
        have h1 : (".".toList).length = 1 := rfl
        rw [h1, List.length_append, List.length_cons] at hlen
        have : 0 < e.length := List.length_pos.mpr he.1
        omega

/-- A file nested beneath `<X>.app/` whose name has no `..` element is not at the top level
for `filepath.Dir`. -/
theorem Dir_nested_ne_dot (x rest : GoString)
    (hno : "..".toList ∉ splitSlash (x ++ ".app/".toList ++ rest)) :
    filepath.Dir (x ++ ".app/".toList ++ rest) ≠ ".".toList := by
  have hname : x ++ ".app/".toList ++ rest = (x ++ ".app".toList) ++ '/' :: rest := by simp
  rw [hname] at hno ⊢
  unfold filepath.Dir
  rw [dirPart_append_slash]
  have hne : (x ++ ".app".toList) ++ '/' :: dirPart rest ≠ [] := by simp
  unfold filepath.Clean
  rw [if_neg hne]
  obtain ⟨init, last, hl, hsuf⟩ := splitSlash_last_suffix ".app".toList (by decide) x
  obtain ⟨h1, h2, h3⟩ := suffix_app_real last hsuf
  have hnodd : "..".toList ∉ splitSlash ((x ++ ".app".toList) ++ '/' :: dirPart rest) := by
    rw [splitSlash_append_slash] at hno ⊢
    intro hmem
    rcases List.mem_append.mp hmem with h | h
    · exact hno (List.mem_append_left _ h)
    · rcases splitSlash_dirPart rest _ h with h0 | h0
      · exact absurd h0 (by decide)
      · exact hno (List.mem_append_right _ h0)
  have helems : cleanElems (isRooted ((x ++ ".app".toList) ++ '/' :: dirPart rest))
      ((x ++ ".app".toList) ++ '/' :: dirPart rest) =
      (splitSlash ((x ++ ".app".toList) ++ '/' :: dirPart rest)).filter isRealElem := by
    unfold cleanElems
    rw [foldl_cleanStep_no_dotdot _ _ _ hnodd]
    simp
  rw [helems]
  apply renderPath_ne_dot
  · have hlast : last ∈ (splitSlash ((x ++ ".app".toList) ++ '/' :: dirPart rest)).filter
        isRealElem := by
      rw [List.mem_filter, splitSlash_append_slash, hl]
      refine ⟨by simp, ?_⟩
      simp only [isRealElem, Bool.and_eq_true, bne_iff_ne, ne_eq]
      exact ⟨h1, h2⟩
    exact List.ne_nil_of_mem hlast
  · intro e he
    exact (List.mem_filter.mp he).2

theorem rootRule_bundle_dir (x : GoString) (f : ZipFile) (hf : f.Name = x ++ ".app/".toList) :
    rootRule f = true := by
  have hdir : f.IsDir = true := by
    unfold ZipFile.IsDir
    rw [hf]
    have : (x ++ ".app/".toList).getLast? = some '/' := by
      rw [List.getLast?_append]
      rfl
    simp [this]
  have hsuf : HasSuffix f.Name ".app/".toList = true := by
    unfold HasSuffix
    rw [List.isSuffixOf_iff_suffix, hf]
    exact List.suffix_append x _
  unfold rootRule
  rw [if_pos hdir]
  exact hsuf

theorem rootRule_bundle_entry (x : GoString) (f : ZipFile) (hf : bundleEntry x f)
    (hr : rootRule f = true) : f.Name = x ++ ".app/".toList := by
  rcases hf with h | ⟨hd, ⟨rest, hrest⟩, hexe, hno⟩
  · exact h
  · exfalso
    unfold rootRule at hr
    rw [hd] at hr
    simp only [Bool.false_eq_true, if_false, Bool.or_eq_true, hexe, false_or,
      decide_eq_true_eq] at hr
    rw [hrest] at hr hno
    exact Dir_nested_ne_dot x rest hno hr

/-- The root chosen in a bundle archive is the extraction path of the bundle directory. -/
theorem lastRoot_bundle (d x : GoString) (files : List ZipFile)
    (hdir : ∃ f ∈ files, f.Name = x ++ ".app/".toList)
    (hall : ∀ f ∈ files, bundleEntry x f) :
    lastRoot rootRule d files = filepath.Join [d, x ++ ".app/".toList] := by
  obtain ⟨f, hf, hname⟩ := hdir
  have hmem : f ∈ files.filter rootRule :=
    List.mem_filter.mpr ⟨hf, rootRule_bundle_dir x f hname⟩
  unfold lastRoot
  cases hl : (files.filter rootRule).getLast? with
  | none =>
    rw [List.getLast?_eq_none_iff] at hl
    rw [hl] at hmem
    cases hmem
  | some g =>
    have hg : g ∈ files.filter rootRule := List.mem_of_getLast?_eq_some hl
    obtain ⟨hg1, hg2⟩ := List.mem_filter.mp hg
    simp only [rootRule_bundle_entry x g (hall g hg1) hg2]

/-- C6, as stated, fails: in a bundle archive with a nested file whose name ends in `.exe`
the root artifact is that file, and `applyUpdateForZip` hands it to raw apply. -/
theorem bundle_with_exe_counterexample :
    (unzip (sysWith archiveBundleExe) []).2 =
      .ok "/tmp/MyApp.app/Contents/MonoBundle/MyApp.exe".toList ∧
    (applyUpdateForZip (sysWith archiveBundleExe) []).1.any Event.isRawApply = true ∧
    (applyUpdateForZip (sysWith archiveBundleExe) []).1.any Event.isApplyCall = true ∧
    (applyUpdateForZip (sysWith archiveBundleExe) []).1.any
      (Event.isBundleApply "/tmp/MyApp.app".toList) = false :=
  ⟨rfl, by decide, by decide, by decide⟩

/-- C6, amended. For an archive that holds the directory entry `<X>.app/` and otherwise
only file entries nested beneath it whose names do not end in `.exe` and have no `..`
element, and whose extraction succeeds at every step: `unzip` returns the extraction path
of the bundle directory, that path ends in `.app`, and `applyUpdateForZip` calls bundle
apply on it and never calls raw apply. -/
theorem bundle_archive_routed (sys : Sys) (h : Trace) (data : List Nat)
    (files : List ZipFile) (x : GoString)
    (hread : sys.ReadAll h = .ok data) (hindex : sys.zipNewReader data = .ok files)
    (hdir : ∃ f ∈ files, f.Name = x ++ ".app/".toList)
    (hall : ∀ f ∈ files, bundleEntry x f)
    (hio : (unzip sys h).1.any Event.isUnpackFailure = false) :
    (unzip sys h).2 = .ok (filepath.Join [sys.TempDir, x ++ ".app/".toList]) ∧
    HasSuffix (filepath.Join [sys.TempDir, x ++ ".app/".toList]) ".app".toList = true ∧
    (applyUpdateForZip sys h).1.any
      (Event.isBundleApply (filepath.Join [sys.TempDir, x ++ ".app/".toList])) = true ∧
    (applyUpdateForZip sys h).1.any Event.isRawApply = false := by
  have hu := unzip_spec sys h
  have hres : (unzip sys h).2 = .ok (filepath.Join [sys.TempDir, x ++ ".app/".toList]) := by
    rw [hu.2.1 data files hread hindex hio, lastRoot_bundle _ _ _ hdir hall]
  have hsuf := Join_bundle_suffix sys.TempDir x
  have hraw : (unzip sys h).1.any Event.isRawApply = false :=
    any_false_of_all hu.1 (fun e he => by
      cases e <;> simp_all [Event.isUnpack, Event.isRawApply])
  refine ⟨hres, hsuf, ?_, ?_⟩
  · unfold applyUpdateForZip
    simp only [hres, hsuf, if_true]
    generalize sys.applyAppDirectory _ _ = r
    cases r <;> simp [Event.isBundleApply]
  · unfold applyUpdateForZip
    simp only [hres, hsuf, if_true]
    generalize sys.applyAppDirectory _ _ = r
    cases r <;> simp [hraw, Event.isRawApply]

/-- Witness of C6 (amended): `MyApp.app/` with nested files. -/
theorem bundle_archive_routed_witness :
    (unzip (sysWith archiveBundle) []).2 = .ok "/tmp/MyApp.app".toList ∧
    (applyUpdateForZip (sysWith archiveBundle) []).1.any Event.isRawApply = false :=
  ⟨(bundle_archive_routed (sysWith archiveBundle) [] [] archiveBundle "MyApp".toList rfl rfl
      ⟨⟨"MyApp.app/".toList, true, 493⟩, by decide, rfl⟩
      (by
        intro f hf
        simp only [archiveBundle, List.mem_cons, List.mem_singleton, List.not_mem_nil,
          or_false] at hf
        rcases hf with rfl | rfl | rfl
        · exact Or.inl rfl
        · exact Or.inr ⟨rfl, ⟨"Contents/Info.plist".toList, rfl⟩, by decide, by decide⟩
        · exact Or.inr ⟨rfl, ⟨"Contents/MacOS/MyApp".toList, rfl⟩, by decide, by decide⟩)
      (by decide)).1.trans rfl,
   (bundle_archive_routed (sysWith archiveBundle) [] [] archiveBundle "MyApp".toList rfl rfl
      ⟨⟨"MyApp.app/".toList, true, 493⟩, by decide, rfl⟩
      (by
        intro f hf
        simp only [archiveBundle, List.mem_cons, List.mem_singleton, List.not_mem_nil,
          or_false] at hf
        rcases hf with rfl | rfl | rfl
        · exact Or.inl rfl
        · exact Or.inr ⟨rfl, ⟨"Contents/Info.plist".toList, rfl⟩, by decide, by decide⟩
        · exact Or.inr ⟨rfl, ⟨"Contents/MacOS/MyApp".toList, rfl⟩, by decide, by decide⟩)
      (by decide)).2.2.2⟩

/-! ### replaceURLTemplate -/

theorem scanTemplate_text_char (acc tl : GoString) (c : Char) (hc : c ≠ lbrace) :
    scanTemplate false acc (c :: tl) = scanTemplate false (c :: acc) tl := by
  cases tl with
  | nil => rfl
  | cons c2 rest =>
    simp only [scanTemplate]
    rw [if_neg (fun h => hc h.1)]

theorem scanTemplate_text (s : GoString) : ∀ (acc rest : GoString), lbrace ∉ s →
    scanTemplate false acc (s ++ rest) = scanTemplate false (s.reverse ++ acc) rest := by
  induction s with
  | nil => intro acc rest _; rfl
  | cons c cs ih =>
    intro acc rest hs
    have hc : c ≠ lbrace := fun h => hs (h ▸ List.mem_cons_self _ _)
    have hcs : lbrace ∉ cs := fun h => hs (List.mem_cons_of_mem _ h)
    rw [List.cons_append, scanTemplate_text_char _ _ _ hc, ih _ _ hcs]
    simp

theorem scanTemplate_os (acc rest : GoString) :
    scanTemplate false acc (Seg.os.source ++ rest) =
      Parsed.consText acc ((scanTemplate false [] rest).cons (.field "OS".toList)) := by
  rfl

theorem scanTemplate_arch (acc rest : GoString) :
    scanTemplate false acc (Seg.arch.source ++ rest) =
      Parsed.consText acc ((scanTemplate false [] rest).cons (.field "Arch".toList)) := by
  rfl

theorem scanTemplate_ext (acc rest : GoString) :
    scanTemplate false acc (Seg.ext.source ++ rest) =
      Parsed.consText acc ((scanTemplate false [] rest).cons (.field "Ext".toList)) := by
  rfl

theorem execNodes_consText (p : platform) (acc : GoString) (ns : List TNode) (out : GoString)
    (h : execNodes p ns = some out) :
    ∃ ms, Parsed.consText acc (.nodes ns) = .nodes ms ∧
      execNodes p ms = some (acc.reverse ++ out) := by
  unfold Parsed.consText
  by_cases hacc : acc = []
  · subst hacc
    exact ⟨ns, rfl, by simpa using h⟩
  · rw [if_neg hacc]
    exact ⟨.text acc.reverse :: ns, rfl, by simp [execNodes, h]⟩

/-- A location string made of brace-free text and the three placeholders parses, and its
execution gives the literal substitution. -/
theorem scanTemplate_segs (rt : Runtime) (exe : GoString) : ∀ (segs : List Seg) (acc : GoString),
    plainText segs = true →
    ∃ ns, scanTemplate false acc (renderSegs segs) = .nodes ns ∧
      execNodes (platformOf rt exe)
        ns = some (acc.reverse ++ substSegs rt segs) := by
  intro segs
  induction segs with
  | nil =>
    intro acc _
    have := execNodes_consText (platformOf rt exe) acc [] [] rfl
    simpa [renderSegs, substSegs, scanTemplate] using this
  | cons s rest ih =>
    intro acc hp
    cases s with
    | text t =>
      simp only [plainText, Bool.and_eq_true, Bool.not_eq_true', List.contains_eq_any_beq,
        List.any_eq_false, beq_iff_eq] at hp
      obtain ⟨ht0, hrest⟩ := hp
      have ht : lbrace ∉ t := fun hmem => ht0 lbrace hmem rfl
      obtain ⟨ns, h1, h2⟩ := ih (t.reverse ++ acc) hrest
      refine ⟨ns, ?_, ?_⟩
      · show scanTemplate false acc (t ++ renderSegs rest) = _
        rw [scanTemplate_text t acc _ ht, h1]
      · rw [h2]
        simp [substSegs, Seg.value]
    | os =>
      obtain ⟨ns, h1, h2⟩ := ih [] hp
      have hx : execNodes (platformOf rt exe) (.field "OS".toList :: ns)
          = some (rt.GOOS ++ substSegs rt rest) := by
        simp only [platformOf, List.reverse_nil, List.nil_append] at h2 ⊢
        simp [execNodes, lookupField, h2]
      obtain ⟨ms, h3, h4⟩ := execNodes_consText _ acc _ _ hx
      refine ⟨ms, ?_, ?_⟩
      · show scanTemplate false acc (Seg.os.source ++ renderSegs rest) = _
        rw [scanTemplate_os, h1]
        exact h3
      · rw [h4]
        rfl
    | arch =>
      obtain ⟨ns, h1, h2⟩ := ih [] hp
      have hx : execNodes (platformOf rt exe) (.field "Arch".toList :: ns)
          = some (rt.GOARCH ++ substSegs rt rest) := by
        simp only [platformOf, List.reverse_nil, List.nil_append] at h2 ⊢
        simp [execNodes, lookupField, h2]
      obtain ⟨ms, h3, h4⟩ := execNodes_consText _ acc _ _ hx
      refine ⟨ms, ?_, ?_⟩
      · show scanTemplate false acc (Seg.arch.source ++ renderSegs rest) = _
        rw [scanTemplate_arch, h1]
        exact h3
      · rw [h4]
        rfl
    | ext =>
      obtain ⟨ns, h1, h2⟩ := ih [] hp
      have hx : execNodes (platformOf rt exe) (.field "Ext".toList :: ns)
          = some (exeSuffix rt.GOOS ++ substSegs rt rest) := by
        simp only [platformOf, List.reverse_nil, List.nil_append] at h2 ⊢
        simp [execNodes, lookupField, h2]
      obtain ⟨ms, h3, h4⟩ := execNodes_consText _ acc _ _ hx
      refine ⟨ms, ?_, ?_⟩
      · show scanTemplate false acc (Seg.ext.source ++ renderSegs rest) = _
        rw [scanTemplate_ext, h1]
        exact h3
      · rw [h4]
        rfl

/-- When the call does not panic, `replaceURLTemplate` is the template run on the platform
value, with the location string itself as fallback. -/
theorem replaceURLTemplate_run (rt : Runtime) (base : GoString) (hsafe : rt.safe) :
    ∃ exe, replaceURLTemplate rt base =
      match templateRun rt base (platformOf rt exe) with
      | none => some base
      | some out => some out := by
  obtain ⟨hargs, hwin⟩ := hsafe
  unfold replaceURLTemplate
  cases hx : rt.ExecutableRealPath with
  | ok path =>
    by_cases hw : rt.GOOS = "windows".toList
    · have hlen := (hwin hw).1 path hx
      have h4 : ¬ (rt.Base path).length < (".exe".toList).length := by
        show ¬ (rt.Base path).length < 4
        omega
      simp only [hw, if_true, h4, if_false]
      exact ⟨_, by simp only [platformOf, exeSuffix, hw, if_true]; rfl⟩
    · simp only [hw, if_false]
      exact ⟨_, by simp only [platformOf, exeSuffix, hw, if_false]; rfl⟩
  | error e =>
    cases ha : rt.Args with
    | nil => exact absurd ha (hargs e hx)
    | cons a rest =>
      by_cases hw : rt.GOOS = "windows".toList
      · have hlen := (hwin hw).2 e a rest hx ha
        have h4 : ¬ (rt.Base a).length < (".exe".toList).length := by
          show ¬ (rt.Base a).length < 4
          omega
        simp only [hw, if_true, h4, if_false]
        exact ⟨_, by simp only [platformOf, exeSuffix, hw, if_true]; rfl⟩
      · simp only [hw, if_false]
        exact ⟨_, by simp only [platformOf, exeSuffix, hw, if_false]; rfl⟩

/-- C7, as stated, fails: a location string that also names a field the platform value
does not have is returned as it is, with `{{.OS}}` still in it. -/
theorem replaceURLTemplate_unknown_field_counterexample :
    replaceURLTemplate rtLinux "http://localhost/app-\x7b\x7b.OS\x7d\x7d-\x7b\x7b.Version\x7d\x7d".toList
      = some "http://localhost/app-\x7b\x7b.OS\x7d\x7d-\x7b\x7b.Version\x7d\x7d".toList ∧
    replaceURLTemplate rtLinux "http://localhost/app-\x7b\x7b.OS\x7d\x7d-\x7b\x7b.Version\x7d\x7d".toList
      ≠ some "http://localhost/app-linux-\x7b\x7b.Version\x7d\x7d".toList := by
  decide

/-- C7, amended. For every OS name, architecture name and location string made of text
without an opening brace and of the placeholders `{{.OS}}`, `{{.Arch}}`, `{{.Ext}}`, and
whenever the call does not panic, `replaceURLTemplate` returns the location string with
each placeholder replaced by the OS name, the architecture name and the executable suffix
(`.exe` on Windows, empty otherwise); a string without placeholder is returned as it
is. -/
theorem replaceURLTemplate_substitutes (rt : Runtime) (segs : List Seg)
    (hplain : plainText segs = true) (hsafe : rt.safe) :
    replaceURLTemplate rt (renderSegs segs) = some (substSegs rt segs) := by
  obtain ⟨exe, hrun⟩ := replaceURLTemplate_run rt (renderSegs segs) hsafe
  obtain ⟨ns, h1, h2⟩ := scanTemplate_segs rt exe segs [] hplain
  rw [hrun]
  unfold templateRun
  rw [h1]
  simp only [h2]
  rfl

theorem rtLinux_safe : rtLinux.safe := by
  refine ⟨fun e he => ?_, fun hw => absurd hw (by decide)⟩
  simp [rtLinux] at he

theorem rtWindows_safe : rtWindows.safe := by
  refine ⟨fun e he => ?_, fun _ => ⟨fun path hp => ?_, fun e a rest he _ => ?_⟩⟩
  · simp [rtWindows] at he
  · simp only [rtWindows, Except.ok.injEq] at hp
    subst hp
    decide
  · simp [rtWindows] at he

/-- Witness of C7 (amended), the strings of the test: on Linux, on Windows, and a string
without placeholder. -/
theorem replaceURLTemplate_substitutes_witness :
    replaceURLTemplate rtLinux
        "http://localhost/nomad-\x7b\x7b.OS\x7d\x7d-\x7b\x7b.Arch\x7d\x7d\x7b\x7b.Ext\x7d\x7d".toList
      = some "http://localhost/nomad-linux-amd64".toList ∧
    replaceURLTemplate rtWindows
        "http://localhost/nomad-\x7b\x7b.OS\x7d\x7d-\x7b\x7b.Arch\x7d\x7d\x7b\x7b.Ext\x7d\x7d".toList
      = some "http://localhost/nomad-windows-amd64.exe".toList ∧
    replaceURLTemplate rtLinux "http://localhost/nomad-windows-amd64.exe".toList
      = some "http://localhost/nomad-windows-amd64.exe".toList :=
  ⟨replaceURLTemplate_substitutes rtLinux segsNomad (by decide) rtLinux_safe,
   replaceURLTemplate_substitutes rtWindows segsNomad (by decide) rtWindows_safe,
   (replaceURLTemplate_substitutes rtLinux
      [.text "http://localhost/nomad-windows-amd64.exe".toList] (by decide) rtLinux_safe).trans
      (by decide)⟩

end Selfupdate
